import Mathlib

/-!
Verification development for the temporal security-master builder and the
provider-matching framework (`build_security_master.py`, `base_mapper.py`,
`refinitiv_mapper.py`).  Dates are modelled as integers (days); nullable
columns are `Option`; pandas multi-column stable sorting is modelled by a
stable insertion sort over lexicographic keys whose components are
`Option Int` with `none` (NaN/NaT) sorting last, matching numpy `lexsort`
with `na_position='last'`.  `drop_duplicates(keep="first")` over a key is
modelled by `dropDupBy`.
-/

namespace ESG

/-- Ordering on nullable integer sort-key components: `none` models NaN/NaT and
sorts last (it is the maximum), matching pandas `na_position='last'`. -/
def optLE : Option Int → Option Int → Bool
  | none, none => true
  | none, some _ => false
  | some _, none => true
  | some a, some b => decide (a ≤ b)

theorem optLE_refl (a : Option Int) : optLE a a = true := by
  cases a <;> simp [optLE]

theorem optLE_total (a b : Option Int) : optLE a b = true ∨ optLE b a = true := by
  cases a <;> cases b <;> simp [optLE] <;> omega

theorem optLE_trans {a b c : Option Int} (h₁ : optLE a b = true) (h₂ : optLE b c = true) :
    optLE a c = true := by
  cases a <;> cases b <;> cases c <;> simp_all [optLE] <;> omega

theorem optLE_antisymm {a b : Option Int} (h₁ : optLE a b = true) (h₂ : optLE b a = true) :
    a = b := by
  cases a <;> cases b <;> simp_all [optLE] <;> omega

/-- Lexicographic comparison of sort-key component lists, modelling pandas
multi-column `sort_values` key comparison. -/
def keyLE : List (Option Int) → List (Option Int) → Bool
  | [], _ => true
  | _ :: _, [] => false
  | a :: as, b :: bs =>
    if optLE a b then (if optLE b a then keyLE as bs else true) else false

theorem keyLE_refl (k : List (Option Int)) : keyLE k k = true := by
  induction k with
  | nil => rfl
  | cons a as ih => simp [keyLE, optLE_refl, ih]

theorem keyLE_total (k l : List (Option Int)) : keyLE k l = true ∨ keyLE l k = true := by
  induction k generalizing l with
  | nil => left; rfl
  | cons a as ih =>
    cases l with
    | nil => right; rfl
    | cons b bs =>
      rcases optLE_total a b with hab | hba
      · by_cases hba' : optLE b a = true
        · rcases ih bs with h | h
          · left; simp [keyLE, hab, hba', h]
          · right; simp [keyLE, hab, hba', h]
        · left; simp [keyLE, hab, hba']
      · by_cases hab' : optLE a b = true
        · by_cases hba' : optLE b a = true
          · rcases ih bs with h | h
            · left; simp [keyLE, hab', hba', h]
            · right; simp [keyLE, hab', hba', h]
          · left; simp [keyLE, hab', hba']
        · right; simp [keyLE, hba, hab']

theorem keyLE_trans {k l m : List (Option Int)} (h₁ : keyLE k l = true)
    (h₂ : keyLE l m = true) : keyLE k m = true := by
  induction k generalizing l m with
  | nil => rfl
  | cons a as ih =>
    cases l with
    | nil => simp [keyLE] at h₁
    | cons b bs =>
      cases m with
      | nil => simp [keyLE] at h₂
      | cons c cs =>
        simp only [keyLE] at h₁ h₂ ⊢
        by_cases hab : optLE a b = true
        · by_cases hbc : optLE b c = true
          · have hac : optLE a c = true := optLE_trans hab hbc
            simp only [hab, if_true] at h₁
            simp only [hbc, if_true] at h₂
            simp only [hac, if_true]
            by_cases hca : optLE c a = true
            · have hba : optLE b a = true := optLE_trans hbc hca
              have hcb : optLE c b = true := optLE_trans hca hab
              simp only [hba, if_true] at h₁
              simp only [hcb, if_true] at h₂
              simp only [hca, if_true]
              exact ih h₁ h₂
            · simp [hca]
          · simp [hbc] at h₂
        · simp [hab] at h₁

theorem keyLE_antisymm {k l : List (Option Int)} (h₁ : keyLE k l = true)
    (h₂ : keyLE l k = true) : k = l := by
  induction k generalizing l with
  | nil => cases l with
    | nil => rfl
    | cons b bs => simp [keyLE] at h₂
  | cons a as ih =>
    cases l with
    | nil => simp [keyLE] at h₁
    | cons b bs =>
      simp only [keyLE] at h₁ h₂
      by_cases hab : optLE a b = true
      · by_cases hba : optLE b a = true
        · have := optLE_antisymm hab hba
          simp only [hab, hba, if_true] at h₁ h₂
          rw [this, ih h₁ h₂]
        · simp [hba, hab] at h₂
      · simp [hab] at h₁

/-- Lexicographic strict order on character lists by code point; models the
comparison pandas uses when sorting a string key column.  Computed via
`Char.toNat` so that it kernel-evaluates on literals. -/
def charListLT : List Char → List Char → Bool
  | [], [] => false
  | [], _ :: _ => true
  | _ :: _, [] => false
  | a :: as, b :: bs =>
    if a.toNat < b.toNat then true
    else if b.toNat < a.toNat then false
    else charListLT as bs

/-- String comparison used by the sort comparators. -/
def strLtB (s t : String) : Bool :=
  charListLT s.data t.data

theorem charToNat_inj {a b : Char} (h : a.toNat = b.toNat) : a = b := by
  have h2 := congrArg Char.ofNat h
  rwa [Char.ofNat_toNat, Char.ofNat_toNat] at h2

theorem charListLT_irrefl (l : List Char) : charListLT l l = false := by
  induction l with
  | nil => rfl
  | cons a as ih => simp [charListLT, ih]

theorem charListLT_asymm : ∀ {k l : List Char},
    charListLT k l = true → charListLT l k = false := by
  intro k
  induction k with
  | nil =>
    intro l h
    cases l with
    | nil => simp [charListLT] at h
    | cons b bs => rfl
  | cons a as ih =>
    intro l h
    cases l with
    | nil => simp [charListLT] at h
    | cons b bs =>
      simp only [charListLT] at h ⊢
      by_cases hab : a.toNat < b.toNat
      · rw [if_neg (by omega), if_pos hab]
      · by_cases hba : b.toNat < a.toNat
        · rw [if_neg hab, if_pos hba] at h
          exact absurd h (by simp)
        · rw [if_neg hab, if_neg hba] at h
          rw [if_neg hba, if_neg hab]
          exact ih h

theorem charListLT_trans : ∀ {k l m : List Char},
    charListLT k l = true → charListLT l m = true → charListLT k m = true := by
  intro k
  induction k with
  | nil =>
    intro l m h₁ h₂
    cases l with
    | nil => simp [charListLT] at h₁
    | cons b bs =>
      cases m with
      | nil => simp [charListLT] at h₂
      | cons c cs => rfl
  | cons a as ih =>
    intro l m h₁ h₂
    cases l with
    | nil => simp [charListLT] at h₁
    | cons b bs =>
      cases m with
      | nil => simp [charListLT] at h₂
      | cons c cs =>
        simp only [charListLT] at h₁ h₂ ⊢
        by_cases hab : a.toNat < b.toNat
        · by_cases hbc : b.toNat < c.toNat
          · rw [if_pos (by omega)]
          · by_cases hcb : c.toNat < b.toNat
            · rw [if_neg hbc, if_pos hcb] at h₂
              exact absurd h₂ (by simp)
            · have hbceq : b.toNat = c.toNat := by omega
              rw [if_pos (by omega)]
        · by_cases hba : b.toNat < a.toNat
          · rw [if_neg hab, if_pos hba] at h₁
            exact absurd h₁ (by simp)
          · have habeq : a.toNat = b.toNat := by omega
            rw [if_neg hab, if_neg hba] at h₁
            by_cases hbc : b.toNat < c.toNat
            · rw [if_pos (by omega)]
            · by_cases hcb : c.toNat < b.toNat
              · rw [if_neg hbc, if_pos hcb] at h₂
                exact absurd h₂ (by simp)
              · rw [if_neg hbc, if_neg hcb] at h₂
                rw [if_neg (by omega), if_neg (by omega)]
                exact ih h₁ h₂

theorem charListLT_connex : ∀ {k l : List Char},
    charListLT k l = false → charListLT l k = false → k = l := by
  intro k
  induction k with
  | nil =>
    intro l h₁ _
    cases l with
    | nil => rfl
    | cons b bs => simp [charListLT] at h₁
  | cons a as ih =>
    intro l h₁ h₂
    cases l with
    | nil => simp [charListLT] at h₂
    | cons b bs =>
      simp only [charListLT] at h₁ h₂
      by_cases hab : a.toNat < b.toNat
      · rw [if_pos hab] at h₁
        exact absurd h₁ (by simp)
      · by_cases hba : b.toNat < a.toNat
        · rw [if_pos hba] at h₂
          exact absurd h₂ (by simp)
        · rw [if_neg hab, if_neg hba] at h₁
          rw [if_neg hba, if_neg hab] at h₂
          have hde : a = b := charToNat_inj (by omega)
          rw [hde, ih h₁ h₂]

theorem strLtB_irrefl (s : String) : strLtB s s = false :=
  charListLT_irrefl s.data

theorem strLtB_asymm {s t : String} (h : strLtB s t = true) : strLtB t s = false :=
  charListLT_asymm h

theorem strLtB_trans {s t u : String} (h₁ : strLtB s t = true) (h₂ : strLtB t u = true) :
    strLtB s u = true :=
  charListLT_trans h₁ h₂

theorem strLtB_connex {s t : String} (h₁ : strLtB s t = false) (h₂ : strLtB t s = false) :
    s = t := by
  have hd : s.data = t.data := charListLT_connex h₁ h₂
  cases s
  cases t
  exact congrArg String.mk hd

/-- Compare a leading string column ascending, then fall through to remaining
integer key components; models a pandas sort whose first `by` column is a
string key. -/
def strThen (s t : String) (k l : List (Option Int)) : Bool :=
  if strLtB s t then true else if strLtB t s then false else keyLE k l

theorem strThen_iff {s t : String} {k l : List (Option Int)} :
    strThen s t k l = true ↔ strLtB s t = true ∨ (s = t ∧ keyLE k l = true) := by
  unfold strThen
  by_cases h₁ : strLtB s t = true
  · rw [if_pos h₁]
    exact iff_of_true rfl (Or.inl h₁)
  · rw [if_neg h₁]
    by_cases h₂ : strLtB t s = true
    · rw [if_pos h₂]
      refine iff_of_false (by simp) ?_
      rintro (h | ⟨rfl, _⟩)
      · exact h₁ h
      · rw [strLtB_irrefl] at h₂
        exact absurd h₂ (by simp)
    · rw [if_neg h₂]
      have hst : s = t := strLtB_connex (by simpa using h₁) (by simpa using h₂)
      subst hst
      constructor
      · intro hk
        exact Or.inr ⟨rfl, hk⟩
      · rintro (h | ⟨_, hk⟩)
        · exact absurd h h₁
        · exact hk

theorem strThen_refl (s : String) (k : List (Option Int)) : strThen s s k k = true :=
  strThen_iff.mpr (Or.inr ⟨rfl, keyLE_refl k⟩)

theorem strThen_total (s t : String) (k l : List (Option Int)) :
    strThen s t k l = true ∨ strThen t s l k = true := by
  by_cases h₁ : strLtB s t = true
  · exact Or.inl (strThen_iff.mpr (Or.inl h₁))
  · by_cases h₂ : strLtB t s = true
    · exact Or.inr (strThen_iff.mpr (Or.inl h₂))
    · have hst : s = t := strLtB_connex (by simpa using h₁) (by simpa using h₂)
      subst hst
      rcases keyLE_total k l with hk | hk
      · exact Or.inl (strThen_iff.mpr (Or.inr ⟨rfl, hk⟩))
      · exact Or.inr (strThen_iff.mpr (Or.inr ⟨rfl, hk⟩))

theorem strThen_trans {s t u : String} {k l m : List (Option Int)}
    (h₁ : strThen s t k l = true) (h₂ : strThen t u l m = true) :
    strThen s u k m = true := by
  rcases strThen_iff.mp h₁ with ha | ⟨rfl, ha⟩
  · rcases strThen_iff.mp h₂ with hb | ⟨rfl, _⟩
    · exact strThen_iff.mpr (Or.inl (strLtB_trans ha hb))
    · exact strThen_iff.mpr (Or.inl ha)
  · rcases strThen_iff.mp h₂ with hb | ⟨rfl, hb⟩
    · exact strThen_iff.mpr (Or.inl hb)
    · exact strThen_iff.mpr (Or.inr ⟨rfl, keyLE_trans ha hb⟩)

theorem strThen_antisymm {s t : String} {k l : List (Option Int)}
    (h₁ : strThen s t k l = true) (h₂ : strThen t s l k = true) :
    s = t ∧ k = l := by
  rcases strThen_iff.mp h₁ with ha | ⟨rfl, ha⟩
  · rcases strThen_iff.mp h₂ with hb | ⟨heq, _⟩
    · rw [strLtB_asymm ha] at hb
      exact absurd hb (by simp)
    · subst heq
      rw [strLtB_irrefl] at ha
      exact absurd ha (by simp)
  · rcases strThen_iff.mp h₂ with hb | ⟨_, hb⟩
    · rw [strLtB_irrefl] at hb
      exact absurd hb (by simp)
    · exact ⟨rfl, keyLE_antisymm ha hb⟩

/-- Stable insertion of an element into a list: the element is placed before
the first existing element it compares less-or-equal to. -/
def oInsert (le : α → α → Bool) (a : α) : List α → List α
  | [] => [a]
  | b :: l => if le a b then a :: b :: l else b :: oInsert le a l

/-- Stable sort by a boolean comparator; models pandas multi-column
`sort_values` (numpy `lexsort`), which is stable. -/
def oSort (le : α → α → Bool) : List α → List α
  | [] => []
  | a :: l => oInsert le a (oSort le l)

theorem oInsert_perm (le : α → α → Bool) (a : α) (l : List α) :
    (oInsert le a l).Perm (a :: l) := by
  induction l with
  | nil => simp [oInsert]
  | cons b bs ih =>
    simp only [oInsert]
    by_cases h : le a b = true
    · simp [h]
    · simp only [h, if_false]
      exact ((ih.cons b).trans (List.Perm.swap a b bs))

theorem oSort_perm (le : α → α → Bool) (l : List α) : (oSort le l).Perm l := by
  induction l with
  | nil => simp [oSort]
  | cons a as ih =>
    exact (oInsert_perm le a (oSort le as)).trans (ih.cons a)

theorem mem_oInsert {le : α → α → Bool} {a x : α} {l : List α} :
    x ∈ oInsert le a l ↔ x = a ∨ x ∈ l := by
  constructor
  · intro h
    have := (oInsert_perm le a l).mem_iff.mp h
    simpa using this
  · intro h
    apply (oInsert_perm le a l).mem_iff.mpr
    simpa using h

theorem pairwise_oInsert {le : α → α → Bool}
    (htot : ∀ a b, le a b = true ∨ le b a = true)
    (htrans : ∀ a b c, le a b = true → le b c = true → le a c = true)
    {a : α} {l : List α}
    (hl : l.Pairwise (fun x y => le x y = true)) :
    (oInsert le a l).Pairwise (fun x y => le x y = true) := by
  induction l with
  | nil => simp [oInsert]
  | cons b bs ih =>
    simp only [oInsert]
    rcases List.pairwise_cons.mp hl with ⟨hb, hbs⟩
    by_cases h : le a b = true
    · simp only [h, if_true]
      refine List.pairwise_cons.mpr ⟨?_, hl⟩
      intro x hx
      rcases List.mem_cons.mp hx with hx | hx
      · subst hx; exact h
      · exact htrans a b x h (hb x hx)
    · simp only [h, if_false]
      have hba : le b a = true := (htot a b).resolve_left h
      refine List.pairwise_cons.mpr ⟨?_, ih hbs⟩
      intro x hx
      rcases mem_oInsert.mp hx with hx | hx
      · subst hx; exact hba
      · exact hb x hx

theorem pairwise_oSort {le : α → α → Bool}
    (htot : ∀ a b, le a b = true ∨ le b a = true)
    (htrans : ∀ a b c, le a b = true → le b c = true → le a c = true)
    (l : List α) :
    (oSort le l).Pairwise (fun x y => le x y = true) := by
  induction l with
  | nil => simp [oSort]
  | cons a as ih => exact pairwise_oInsert htot htrans ih

theorem mem_oSort {le : α → α → Bool} {x : α} {l : List α} :
    x ∈ oSort le l ↔ x ∈ l :=
  (oSort_perm le l).mem_iff

/-- Keep the first row of each key group, in list order; models pandas
`drop_duplicates(subset=key, keep="first")`. -/
def dropDupBy [DecidableEq β] (key : α → β) : List α → List α
  | [] => []
  | a :: l => a :: dropDupBy key (l.filter (fun b => decide (key b ≠ key a)))
termination_by l => l.length
decreasing_by simpa using Nat.lt_succ_of_le (List.length_filter_le _ _)

theorem mem_of_mem_dropDupBy [DecidableEq β] {key : α → β} {x : α} :
    ∀ {l : List α}, x ∈ dropDupBy key l → x ∈ l := by
  intro l
  induction l using dropDupBy.induct key with
  | case1 => intro h; simp [dropDupBy] at h
  | case2 a l ih =>
    intro h
    rw [dropDupBy] at h
    rcases List.mem_cons.mp h with h | h
    · exact h ▸ List.mem_cons_self a l
    · exact List.mem_cons_of_mem a (List.mem_of_mem_filter (ih h))

theorem mem_map_dropDupBy [DecidableEq β] {key : α → β} {k : β} :
    ∀ {l : List α}, k ∈ (dropDupBy key l).map key ↔ k ∈ l.map key := by
  intro l
  induction l using dropDupBy.induct key with
  | case1 => simp [dropDupBy]
  | case2 a l ih =>
    rw [dropDupBy]
    simp only [List.map_cons, List.mem_cons]
    constructor
    · intro h
      rcases h with h | h
      · exact Or.inl h
      · rcases List.mem_map.mp (ih.mp h) with ⟨b, hb, hkb⟩
        exact Or.inr (List.mem_map.mpr ⟨b, List.mem_of_mem_filter hb, hkb⟩)
    · intro h
      rcases h with h | h
      · exact Or.inl h
      · by_cases hk : k = key a
        · exact Or.inl hk
        · rcases List.mem_map.mp h with ⟨b, hb, hkb⟩
          refine Or.inr (ih.mpr (List.mem_map.mpr ⟨b, ?_, hkb⟩))
          refine List.mem_filter.mpr ⟨hb, ?_⟩
          simp only [decide_eq_true_eq]
          rw [hkb]
          exact hk

theorem count_map_dropDupBy [DecidableEq β] [BEq β] [LawfulBEq β] (key : α → β) (k : β) :
    ∀ (l : List α),
      ((dropDupBy key l).map key).count k = if k ∈ l.map key then 1 else 0 := by
  intro l
  induction l using dropDupBy.induct key with
  | case1 => simp [dropDupBy]
  | case2 a l ih =>
    rw [dropDupBy]
    simp only [List.map_cons, List.count_cons]
    have hiff : k ∈ (l.filter (fun b => decide (key b ≠ key a))).map key ↔
        (k ∈ l.map key ∧ k ≠ key a) := by
      constructor
      · intro h
        rcases List.mem_map.mp h with ⟨b, hb, hkb⟩
        have hne := (List.mem_filter.mp hb).2
        simp only [decide_eq_true_eq] at hne
        exact ⟨List.mem_map.mpr ⟨b, List.mem_of_mem_filter hb, hkb⟩, hkb ▸ hne⟩
      · intro h
        rcases List.mem_map.mp h.1 with ⟨b, hb, hkb⟩
        refine List.mem_map.mpr ⟨b, List.mem_filter.mpr ⟨hb, ?_⟩, hkb⟩
        simp only [decide_eq_true_eq]
        rw [hkb]
        exact h.2
    rw [ih]
    by_cases hk : k = key a
    · have hcond : ¬ (k ∈ (l.filter (fun b => decide (key b ≠ key a))).map key) := by
        intro h
        exact (hiff.mp h).2 hk
      rw [if_neg hcond]
      have hbeq : (key a == k) = true := beq_iff_eq.mpr hk.symm
      have hmem : k ∈ key a :: l.map key := by
        exact List.mem_cons.mpr (Or.inl hk)
      rw [if_pos hmem, hbeq]
      simp
    · have hbeq : (key a == k) = false := by
        simp only [beq_eq_false_iff_ne, ne_eq]
        exact fun h => hk h.symm
      rw [hbeq]
      by_cases hmem : k ∈ l.map key
      · rw [if_pos (hiff.mpr ⟨hmem, hk⟩)]
        have hmem' : k ∈ key a :: l.map key := List.mem_cons_of_mem _ hmem
        rw [if_pos hmem']
        simp
      · rw [if_neg (fun h => hmem (hiff.mp h).1)]
        have hno : k ∉ key a :: l.map key := by
          intro h
          rcases List.mem_cons.mp h with h | h
          · exact hk h
          · exact hmem h
        rw [if_neg hno]
        simp

/-- The row kept for a key group by sort-then-keep-first is at least as good
(under the sort comparator) as every row of the group. -/
theorem dropDupBy_min [DecidableEq β] {le : α → α → Bool} {key : α → β}
    (hrefl : ∀ a, le a a = true) :
    ∀ {l : List α}, l.Pairwise (fun x y => le x y = true) →
      ∀ {a b : α}, a ∈ dropDupBy key l → b ∈ l → key b = key a → le a b = true := by
  intro l
  induction l using dropDupBy.induct key with
  | case1 =>
    intro _ a b ha
    simp [dropDupBy] at ha
  | case2 x l ih =>
    intro hsorted a b ha hb hk
    rcases List.pairwise_cons.mp hsorted with ⟨hx, hl⟩
    rw [dropDupBy] at ha
    rcases List.mem_cons.mp ha with ha | ha
    · rcases List.mem_cons.mp hb with hb | hb
      · rw [ha, hb]; exact hrefl x
      · rw [ha]; exact hx b hb
    · have hka : key a ≠ key x := by
        have := (List.mem_filter.mp (mem_of_mem_dropDupBy ha)).2
        simp only [decide_eq_true_eq] at this
        exact this
      rcases List.mem_cons.mp hb with hb | hb
      · exact absurd (hb ▸ hk) (fun h => hka h.symm)
      · have hsorted' : (l.filter (fun b => decide (key b ≠ key x))).Pairwise
            (fun x y => le x y = true) := hl.filter _
        have hbf : b ∈ l.filter (fun b => decide (key b ≠ key x)) := by
          refine List.mem_filter.mpr ⟨hb, ?_⟩
          simp only [decide_eq_true_eq]
          rw [hk]
          exact hka
        exact ih hsorted' ha hbf hk

/-- Uniqueness of the result of a stable sort when the comparator is
antisymmetric on the elements: two sorted permutations of each other are
equal. -/
theorem sorted_perm_eq {le : α → α → Bool} :
    ∀ {l₁ l₂ : List α}, l₁.Perm l₂ →
      l₁.Pairwise (fun x y => le x y = true) →
      l₂.Pairwise (fun x y => le x y = true) →
      (∀ a ∈ l₁, ∀ b ∈ l₁, le a b = true → le b a = true → a = b) →
      l₁ = l₂ := by
  intro l₁
  induction l₁ with
  | nil =>
    intro l₂ hperm _ _ _
    exact (List.Perm.nil_eq hperm).symm ▸ rfl
  | cons a t₁ ih =>
    intro l₂ hperm hs₁ hs₂ hanti
    cases l₂ with
    | nil => exact absurd hperm.symm (by simp)
    | cons b t₂ =>
      rcases List.pairwise_cons.mp hs₁ with ⟨ha, ht₁⟩
      rcases List.pairwise_cons.mp hs₂ with ⟨hb, ht₂⟩
      have hab : a = b := by
        have hbmem : b ∈ a :: t₁ := hperm.symm.subset (List.mem_cons_self b t₂)
        rcases List.mem_cons.mp hbmem with h | h
        · exact h.symm
        · have hamem : a ∈ b :: t₂ := hperm.subset (List.mem_cons_self a t₁)
          rcases List.mem_cons.mp hamem with h' | h'
          · exact h'
          · exact hanti a (List.mem_cons_self a t₁) b hbmem (ha b h) (hb a h')
      subst hab
      have hperm' : t₁.Perm t₂ := List.Perm.cons_inv hperm
      have : t₁ = t₂ := by
        refine ih hperm' ht₁ ht₂ ?_
        intro x hx y hy hxy hyx
        exact hanti x (List.mem_cons_of_mem a hx) y (List.mem_cons_of_mem a hy) hxy hyx
      rw [this]

/-! ## Security-master builder (`build_security_master.py`)

Dates are days since 1970-01-01.  `far_future` is `pd.Timestamp("2262-04-11")`,
the open-endedness sentinel; `epoch_1900` is `pd.Timestamp("1900-01-01")`, the
fill for missing link start dates. -/

def far_future : Int := 106751

def epoch_1900 : Int := -25567

/-- Whitespace strip of `str.strip()`, on the character list. -/
def trimList (cs : List Char) : List Char :=
  ((cs.dropWhile Char.isWhitespace).reverse.dropWhile Char.isWhitespace).reverse

/-- Strip one trailing `".0"` (the regex `\\.0$`), on the character list. -/
def stripDotZeroList (cs : List Char) : List Char :=
  if cs.reverse.take 2 = ['0', '.'] then cs.take (cs.length - 2) else cs

/-- Digit characters surviving the `\\D` removal in `norm_gvkey`. -/
def digitsOf (s : String) : List Char :=
  (stripDotZeroList (trimList s.data)).filter Char.isDigit

/-- Pad a digit string on the left with zeros to width 6 (`str.zfill(6)`);
longer strings are returned unchanged. -/
def zfill6 (s : String) : String :=
  if s.data.length < 6 then String.mk (List.replicate (6 - s.data.length) '0' ++ s.data)
  else s

/-- Normalize a gvkey value: strip whitespace, drop a trailing `".0"`, keep
digits only (`\\D` removed), empty becomes missing, then zero-pad to width 6.
Models `norm_gvkey` applied to one element of the series. -/
def norm_gvkey (s : String) : Option String :=
  if digitsOf s = [] then none else some (zfill6 (String.mk (digitsOf s)))

/-- Uppercasing of `.str.upper()`, character-wise. -/
def upperStr (s : String) : String :=
  String.mk (s.data.map Char.toUpper)

/-- Prefix of the first `n` characters (`str.slice(0, n)` / `.str[:n]`). -/
def takeStr (n : Nat) (s : String) : String :=
  String.mk (s.data.take n)

/-- Identity Segment (one CRSP NAMES row after `load_and_process_names`):
security key and validity window plus the 6-character CUSIP used by the
resolver. Identity columns the resolver merely carries through are omitted. -/
structure Segment where
  permno : Int
  namedt : Int
  nameendt : Int
  ncusip6 : Option String
deriving DecidableEq, Repr

/-- Ownership Link (one LINK row after `load_and_process_links`). -/
structure Link where
  permno : Int
  gvkey : Option String
  linkdt : Int
  linkenddt : Int
  cusip6 : Option String
  linkprim : Option String
  linktype : Option String
  linkprim_score : Int
  linktype_rank : Int
deriving DecidableEq, Repr

/-- Raw LINK row as read from CSV: `permno` after `to_numeric(errors="coerce")`
(`none` = unparseable/missing), dates after `to_datetime(errors="coerce")`
with `"E"` already treated as open-ended, strings raw. -/
structure RawLink where
  permno : Option Int
  gvkey : Option String
  linkdt : Option Int
  linkenddt : Option Int
  linkprim : Option String
  linktype : Option String
  cusip : Option String
deriving DecidableEq, Repr

/-- Rank link types: LU > LC > everything else (`LINKTYPE_PRIORITY`,
`.map(...).fillna(0)`). -/
def linktype_rank_of (lt : Option String) : Int :=
  if lt = some "LU" then 2 else if lt = some "LC" then 1 else 0

/-- Score for `linkprim`: `lp.isin(["P", "C"])` (missing counts as `False`),
cast to int. -/
def linkprim_score_of (lp : Option String) : Int :=
  if lp = some "P" ∨ lp = some "C" then 1 else 0

/-- Model of `load_and_process_links`: normalize gvkey, uppercase flag/id
columns, derive `cusip6`, fill missing dates with the sentinels, compute the
tie-break scores, then `dropna(subset=["permno", "linkdt", "linkenddt"])`.
Since both date columns were just filled, only a missing `permno` drops a row;
`gvkey` is not in the `dropna` subset, so rows whose gvkey fails normalization
are kept with `gvkey = none`. -/
def load_and_process_links (rows : List RawLink) : List Link :=
  rows.filterMap fun r =>
    match r.permno with
    | none => none
    | some p =>
      let lp := r.linkprim.map upperStr
      let lt := r.linktype.map upperStr
      let cu := r.cusip.map upperStr
      some {
        permno := p
        gvkey := r.gvkey.bind norm_gvkey
        linkdt := r.linkdt.getD epoch_1900
        linkenddt := r.linkenddt.getD far_future
        cusip6 := cu.map (takeStr 6)
        linkprim := lp
        linktype := lt
        linkprim_score := linkprim_score_of lp
        linktype_rank := linktype_rank_of lt }

/-- Overlap predicate of `merge_and_rank`:
`(namedt <= linkenddt) & (nameendt >= linkdt)`, with `fillna(False)` (a row
whose link columns are all-NaN from the left merge compares as NA). -/
def overlap_ok (namedt nameendt linkdt linkenddt : Int) : Bool :=
  decide (namedt ≤ linkenddt) && decide (nameendt ≥ linkdt)

/-- Overlap days of `merge_and_rank`:
`np.where(overlap_ok, (min(ends) - max(starts)).days.clip(lower=0), 0)`. -/
def mr_overlap_days (namedt nameendt linkdt linkenddt : Int) : Int :=
  if overlap_ok namedt nameendt linkdt linkenddt then
    max 0 (min nameendt linkenddt - max namedt linkdt)
  else 0

/-- Shared interval-overlap utility of `BaseESGMapper.calculate_overlap_days`:
`((min(end1, end2) - max(start1, start2)).days).clip(lower=0)`. -/
def calculate_overlap_days (start1 end1 start2 end2 : Int) : Int :=
  max 0 (min end1 end2 - max start1 start2)

/-- One row of the left merge `names.merge(links, on="permno", how="left")`:
the segment columns plus the matched link's columns (`none` when the segment
had no link at all and the link columns are NaN). -/
structure MRow where
  seg : Segment
  link : Option Link
deriving DecidableEq, Repr

namespace MRow

/-- Computed `overlap_ok` column; all comparisons against NaT are NA, and
`fillna(False)` makes a linkless row `False`. -/
def overlap_ok' (r : MRow) : Bool :=
  match r.link with
  | none => false
  | some l => overlap_ok r.seg.namedt r.seg.nameendt l.linkdt l.linkenddt

/-- Computed `overlap_days` column (0 for a linkless row: `overlap_ok` is
`False` there). -/
def overlap_days (r : MRow) : Int :=
  match r.link with
  | none => 0
  | some l => mr_overlap_days r.seg.namedt r.seg.nameendt l.linkdt l.linkenddt

/-- Computed `cusip6_match` column: 1 iff both six-character CUSIPs are
present and equal. -/
def cusip6_match (r : MRow) : Int :=
  match r.seg.ncusip6, r.link.bind Link.cusip6 with
  | some a, some b => if a = b then 1 else 0
  | _, _ => 0

/-- Computed `linkprim_score` column after the `fillna(0)` cast (0 on a
linkless row). -/
def linkprim_score (r : MRow) : Int :=
  (r.link.map Link.linkprim_score).getD 0

/-- Computed `linktype_rank` column after the `fillna(0)` cast. -/
def linktype_rank (r : MRow) : Int :=
  (r.link.map Link.linktype_rank).getD 0

/-- Resulting `gvkey` column of the time-segmented master (NA when
unmatched). -/
def gvkey (r : MRow) : Option String :=
  r.link.bind Link.gvkey

/-- Segment key used for deduplication: `["permno", "namedt", "nameendt"]`. -/
def key (r : MRow) : Int × Int × Int :=
  (r.seg.permno, r.seg.namedt, r.seg.nameendt)

/-- Sort key of the ranking sort in `merge_and_rank`
(`["permno", "namedt", "nameendt", "linkprim_score", "linktype_rank",
"cusip6_match", "overlap_days", "linkdt"]` with descending score columns);
descending integer columns are negated, and the `linkdt` of a linkless row is
NaT, which sorts last (`none`). -/
def sortKey (r : MRow) : List (Option Int) :=
  [some r.seg.permno, some r.seg.namedt, some r.seg.nameendt,
   some (- r.linkprim_score), some (- r.linktype_rank),
   some (- r.cusip6_match), some (- r.overlap_days),
   r.link.map Link.linkdt]

end MRow

/-- Comparator of the ranking sort of `merge_and_rank`. -/
def mergedLE (x y : MRow) : Bool :=
  keyLE x.sortKey y.sortKey

/-- Segment key of a segment row. -/
def segKey (s : Segment) : Int × Int × Int :=
  (s.permno, s.namedt, s.nameendt)

/-- Left merge `names.merge(links, on="permno", how="left")`: every segment
row paired with each link row of equal `permno`, or with all-NaN link columns
when there is none. -/
def mergedList (names : List Segment) (links : List Link) : List MRow :=
  names.flatMap fun s =>
    match links.filter (fun l => decide (l.permno = s.permno)) with
    | [] => [{ seg := s, link := none }]
    | ls => ls.map fun l => { seg := s, link := some l }

/-- Model of `merge_and_rank`: merge, compute overlaps, stable-sort by the
ranking key, keep the first (best) row per segment key among rows with
`overlap_ok`, then append every deduplicated input segment whose key got no
match, with link columns NaN and scores zero. -/
def merge_and_rank (names : List Segment) (links : List Link) : List MRow :=
  let merged := mergedList names links
  let matched_best := dropDupBy MRow.key ((oSort mergedLE merged).filter MRow.overlap_ok')
  let all_segments := dropDupBy segKey names
  let unmatched := (all_segments.filter
    (fun s => decide (¬ segKey s ∈ matched_best.map MRow.key))).map
    (fun s => { seg := s, link := none })
  matched_best ++ unmatched

theorem overlap_nonpos {a b c d : Int} (h : overlap_ok a b c d = false) :
    min b d - max a c ≤ 0 := by
  have h' : ¬ (a ≤ d) ∨ ¬ (c ≤ b) := by
    by_contra hcon
    push_neg at hcon
    simp [overlap_ok, hcon.1, hcon.2] at h
  have hbd₁ : min b d ≤ b := min_le_left b d
  have hbd₂ : min b d ≤ d := min_le_right b d
  have hac₁ : a ≤ max a c := le_max_left a c
  have hac₂ : c ≤ max a c := le_max_right a c
  rcases h' with h' | h' <;> omega

/-- C2: both overlap computations (the vectorized one in `merge_and_rank` and
the shared `calculate_overlap_days` utility) equal
`max 0 (min b d - max a c)` in days for segment interval `[a, b)` and link
interval `[c, d)`, and both are zero whenever `overlap_ok` fails; the closed
form covers no-overlap, partial overlap, containment, and exact equality. -/
theorem C2_overlap_days_correct (a b c d : Int) :
    calculate_overlap_days a b c d = max 0 (min b d - max a c)
    ∧ mr_overlap_days a b c d = max 0 (min b d - max a c)
    ∧ (overlap_ok a b c d = false →
        mr_overlap_days a b c d = 0 ∧ calculate_overlap_days a b c d = 0) := by
  refine ⟨rfl, ?_, ?_⟩
  · unfold mr_overlap_days
    by_cases h : overlap_ok a b c d = true
    · rw [if_pos h]
    · rw [if_neg h]
      have hle := overlap_nonpos (Bool.not_eq_true _ ▸ h)
      exact (max_eq_left hle).symm
  · intro h
    have hle := overlap_nonpos h
    constructor
    · unfold mr_overlap_days
      rw [if_neg (by simp [h])]
    · unfold calculate_overlap_days
      exact max_eq_left hle

theorem C2_overlap_days_correct_witness :
    overlap_ok 0 10 20 30 = false
    ∧ mr_overlap_days 0 10 20 30 = 0 ∧ calculate_overlap_days 0 10 20 30 = 0 :=
  ⟨by decide, (C2_overlap_days_correct 0 10 20 30).2.2 (by decide)⟩

theorem norm_gvkey_shape {s g : String} (h : norm_gvkey s = some g) :
    6 ≤ g.length ∧ g.toList.all Char.isDigit = true := by
  unfold norm_gvkey at h
  by_cases hd : digitsOf s = []
  · rw [if_pos hd] at h
    simp at h
  · rw [if_neg hd] at h
    have hg : g = zfill6 (String.mk (digitsOf s)) := (Option.some.inj h).symm
    subst hg
    have hall : (digitsOf s).all Char.isDigit = true :=
      List.all_eq_true.mpr (fun c hc => (List.mem_filter.mp hc).2)
    unfold zfill6
    by_cases hlen : (String.mk (digitsOf s)).data.length < 6
    · rw [if_pos hlen]
      constructor
      · show 6 ≤ (List.replicate (6 - (digitsOf s).length) '0' ++ digitsOf s).length
        rw [List.length_append, List.length_replicate]
        have hpos : (digitsOf s).length ≠ 0 := fun hz => hd (List.eq_nil_of_length_eq_zero hz)
        omega
      · show (List.replicate (6 - (digitsOf s).length) '0' ++ digitsOf s).all Char.isDigit = true
        rw [List.all_append, hall, Bool.and_true]
        exact List.all_eq_true.mpr (fun c hc => by
          rw [List.eq_of_mem_replicate hc]
          decide)
    · rw [if_neg hlen]
      have hge : 6 ≤ (digitsOf s).length := Nat.not_lt.mp hlen
      exact ⟨hge, hall⟩

theorem length_load_links (rows : List RawLink) :
    (load_and_process_links rows).length
      = (rows.filter (fun r => r.permno.isSome)).length := by
  induction rows with
  | nil => rfl
  | cons r rs ih =>
    unfold load_and_process_links at ih ⊢
    cases hp : r.permno with
    | none => simpa [List.filterMap_cons, List.filter_cons, hp] using ih
    | some p => simpa [List.filterMap_cons, List.filter_cons, hp] using ih

theorem mem_load_links {rows : List RawLink} {l : Link}
    (h : l ∈ load_and_process_links rows) :
    ∃ r ∈ rows, r.permno = some l.permno ∧ l.gvkey = r.gvkey.bind norm_gvkey := by
  rcases List.mem_filterMap.mp h with ⟨r, hr, hfr⟩
  cases hp : r.permno with
  | none => rw [hp] at hfr; simp at hfr
  | some p =>
    rw [hp] at hfr
    simp only [Option.some.injEq] at hfr
    exact ⟨r, hr, by rw [hp, ← hfr], by rw [← hfr]⟩

/-- C8 counterexample: a link row whose gvkey `"ABC"` fails normalization is
NOT dropped by `load_and_process_links` (the `dropna` subset is only
`["permno", "linkdt", "linkenddt"]`); it is kept with `gvkey = none` and can
participate in matching. -/
theorem C8_counterexample :
    norm_gvkey "ABC" = none
    ∧ (load_and_process_links
        [{ permno := some 1, gvkey := some "ABC", linkdt := some 0,
           linkenddt := some 100, linkprim := some "P", linktype := some "LU",
           cusip := none }]).length = 1
    ∧ (load_and_process_links
        [{ permno := some 1, gvkey := some "ABC", linkdt := some 0,
           linkenddt := some 100, linkprim := some "P", linktype := some "LU",
           cusip := none }]).all (fun l => l.gvkey.isNone) = true := by
  refine ⟨?_, rfl, rfl⟩
  rfl

/-- C8 (amended): link rows whose external entity key fails normalization are
kept (with entity key missing) rather than dropped — only a missing security
key drops a row — and every successfully normalized key is an all-digit string
zero-padded to width at least 6. -/
theorem C8_links_normalized (rows : List RawLink) :
    (load_and_process_links rows).length
      = (rows.filter (fun r => r.permno.isSome)).length
    ∧ ∀ l ∈ load_and_process_links rows,
        (∃ r ∈ rows, r.permno = some l.permno ∧ l.gvkey = r.gvkey.bind norm_gvkey)
        ∧ ∀ g, l.gvkey = some g → 6 ≤ g.length ∧ g.toList.all Char.isDigit = true := by
  refine ⟨length_load_links rows, ?_⟩
  intro l hl
  refine ⟨mem_load_links hl, ?_⟩
  intro g hg
  rcases mem_load_links hl with ⟨r, _, _, hgv⟩
  rw [hg] at hgv
  cases hraw : r.gvkey with
  | none => rw [hraw] at hgv; simp at hgv
  | some s =>
    rw [hraw] at hgv
    simp only [Option.some_bind] at hgv
    exact norm_gvkey_shape hgv.symm

/-- Sample raw link row whose gvkey normalizes successfully, used to witness
the amended C8 statement. -/
def c8row : RawLink :=
  { permno := some 7, gvkey := some " 12345.0 ", linkdt := none,
    linkenddt := none, linkprim := none, linktype := none, cusip := none }

theorem C8_links_normalized_witness :
    (load_and_process_links [c8row]).length = 1
    ∧ ∀ l ∈ load_and_process_links [c8row],
        (∃ r ∈ [c8row], r.permno = some l.permno ∧ l.gvkey = r.gvkey.bind norm_gvkey)
        ∧ ∀ g, l.gvkey = some g → 6 ≤ g.length ∧ g.toList.all Char.isDigit = true := by
  have h := C8_links_normalized [c8row]
  refine ⟨?_, h.2⟩
  rw [h.1]
  rfl

theorem mem_mergedList_seg {names : List Segment} {links : List Link} {r : MRow}
    (h : r ∈ mergedList names links) :
    r.seg ∈ names ∧ ∀ l, r.link = some l → l ∈ links ∧ l.permno = r.seg.permno := by
  rcases List.mem_flatMap.mp h with ⟨s, hs, hr⟩
  cases hfl : links.filter (fun l => decide (l.permno = s.permno)) with
  | nil =>
    rw [hfl] at hr
    have hr' : r = { seg := s, link := none } := by simpa using hr
    subst hr'
    refine ⟨hs, ?_⟩
    intro l hl
    simp at hl
  | cons l0 ls =>
    rw [hfl] at hr
    rcases List.mem_map.mp hr with ⟨l, hl, hrl⟩
    subst hrl
    refine ⟨hs, ?_⟩
    intro l' hl'
    have hll : l = l' := by simpa using hl'
    subst hll
    have hmem : l ∈ links.filter (fun l => decide (l.permno = s.permno)) := by
      rw [hfl]
      exact hl
    have hmf := List.mem_filter.mp hmem
    exact ⟨hmf.1, by simpa using hmf.2⟩

theorem seg_mem_mergedList {names : List Segment} (links : List Link) {s : Segment}
    (hs : s ∈ names) :
    ∃ r ∈ mergedList names links, r.seg = s := by
  cases hfl : links.filter (fun l => decide (l.permno = s.permno)) with
  | nil =>
    refine ⟨{ seg := s, link := none }, List.mem_flatMap.mpr ⟨s, hs, ?_⟩, rfl⟩
    rw [hfl]
    simp
  | cons l0 ls =>
    refine ⟨{ seg := s, link := some l0 }, List.mem_flatMap.mpr ⟨s, hs, ?_⟩, rfl⟩
    rw [hfl]
    exact List.mem_map.mpr ⟨l0, List.mem_cons_self _ _, rfl⟩

theorem count_map_filter_keyPred [BEq β] [LawfulBEq β] (key : α → β) (q : β → Bool) (k : β) :
    ∀ (m : List α),
      ((m.filter (fun a => q (key a))).map key).count k
        = if q k = true then (m.map key).count k else 0 := by
  intro m
  induction m with
  | nil => simp
  | cons a m ih =>
    rw [List.filter_cons]
    by_cases hq : q (key a) = true
    · rw [if_pos hq]
      simp only [List.map_cons, List.count_cons, ih]
      by_cases hk : key a = k
      · have hqk : q k = true := hk ▸ hq
        simp [hqk]
      · have hbeq : (key a == k) = false := by
          simp only [beq_eq_false_iff_ne, ne_eq]
          exact hk
        rw [hbeq]
        by_cases hqk : q k = true
        · simp [hqk]
        · simp [hqk]
    · rw [if_neg hq, ih]
      by_cases hqk : q k = true
      · rw [if_pos hqk, if_pos hqk]
        have hk : key a ≠ k := fun h => hq (h ▸ hqk)
        have hbeq : (key a == k) = false := by
          simp only [beq_eq_false_iff_ne, ne_eq]
          exact hk
        simp [List.count_cons, hbeq]
      · rw [if_neg hqk, if_neg hqk]

theorem mergedLE_total (x y : MRow) : mergedLE x y = true ∨ mergedLE y x = true :=
  keyLE_total _ _

theorem mergedLE_trans {x y z : MRow} (h₁ : mergedLE x y = true)
    (h₂ : mergedLE y z = true) : mergedLE x z = true :=
  keyLE_trans h₁ h₂

theorem mergedLE_refl (x : MRow) : mergedLE x x = true :=
  keyLE_refl _

/-- C1: for every input segment set and link set, each distinct segment key
appears exactly once in the output of `merge_and_rank`; every output row's
segment is an input segment; a row without a link has entity key `none` and
zero scores; a row with a link carries exactly that one link, which is an
input link for the same security key with `overlap_ok` true. -/
theorem C1_resolver_complete (names : List Segment) (links : List Link)
    (k : Int × Int × Int) :
    (((merge_and_rank names links).map MRow.key).count k
      = if k ∈ names.map segKey then 1 else 0)
    ∧ (∀ r ∈ merge_and_rank names links,
        r.seg ∈ names
        ∧ (r.link = none → r.gvkey = none ∧ r.overlap_days = 0 ∧ r.cusip6_match = 0
            ∧ r.linkprim_score = 0 ∧ r.linktype_rank = 0)
        ∧ (∀ l, r.link = some l → l ∈ links ∧ l.permno = r.seg.permno
            ∧ r.overlap_ok' = true)) := by
  have hsorted_perm := oSort_perm mergedLE (mergedList names links)
  constructor
  · unfold merge_and_rank
    simp only [List.map_append, List.count_append]
    rw [count_map_dropDupBy]
    rw [List.map_map]
    have hmapeq :
        ((dropDupBy segKey names).filter
            (fun s => decide (¬ segKey s ∈
              (dropDupBy MRow.key
                ((oSort mergedLE (mergedList names links)).filter MRow.overlap_ok')).map
                MRow.key))).map
          (MRow.key ∘ fun s => { seg := s, link := none }) =
        ((dropDupBy segKey names).filter
            (fun s => decide (¬ segKey s ∈
              (dropDupBy MRow.key
                ((oSort mergedLE (mergedList names links)).filter MRow.overlap_ok')).map
                MRow.key))).map segKey := rfl
    rw [hmapeq]
    rw [count_map_filter_keyPred segKey
      (fun kk => decide (¬ kk ∈
        (dropDupBy MRow.key
          ((oSort mergedLE (mergedList names links)).filter MRow.overlap_ok')).map
          MRow.key)) k]
    rw [count_map_dropDupBy]
    by_cases hmk : k ∈ (dropDupBy MRow.key
        ((oSort mergedLE (mergedList names links)).filter MRow.overlap_ok')).map MRow.key
    · rw [if_pos (by rwa [mem_map_dropDupBy] at hmk), if_neg (by simpa using hmk)]
      have hknames : k ∈ names.map segKey := by
        rw [mem_map_dropDupBy] at hmk
        rcases List.mem_map.mp hmk with ⟨r, hr, hkr⟩
        have hrm : r ∈ mergedList names links :=
          hsorted_perm.subset (List.mem_of_mem_filter hr)
        exact List.mem_map.mpr ⟨r.seg, (mem_mergedList_seg hrm).1, hkr⟩
      rw [if_pos hknames]
    · rw [if_neg (by rwa [mem_map_dropDupBy] at hmk), if_pos (by simpa using hmk)]
      exact Nat.zero_add _
  · intro r hr
    unfold merge_and_rank at hr
    rcases List.mem_append.mp hr with hr | hr
    · have hrf := mem_of_mem_dropDupBy hr
      have hrm : r ∈ mergedList names links :=
        hsorted_perm.subset (List.mem_of_mem_filter hrf)
      have hok : r.overlap_ok' = true := List.of_mem_filter hrf
      rcases mem_mergedList_seg hrm with ⟨hseg, hlink⟩
      refine ⟨hseg, ?_, ?_⟩
      · intro hnone
        simp [MRow.gvkey, MRow.overlap_days, MRow.cusip6_match, MRow.linkprim_score,
          MRow.linktype_rank, hnone]
      · intro l hl
        rcases hlink l hl with ⟨h1, h2⟩
        exact ⟨h1, h2, hok⟩
    · rcases List.mem_map.mp hr with ⟨s, hsf, hrs⟩
      have hsmem : s ∈ names :=
        mem_of_mem_dropDupBy (List.mem_of_mem_filter hsf)
      subst hrs
      refine ⟨hsmem, ?_, ?_⟩
      · intro _
        simp [MRow.gvkey, MRow.overlap_days, MRow.cusip6_match, MRow.linkprim_score,
          MRow.linktype_rank]
      · intro l hl
        simp at hl

/-- Sample inputs used to witness C1. -/
def c1names : List Segment :=
  [{ permno := 1, namedt := 0, nameendt := 10, ncusip6 := none }]

/-- Sample links used to witness C1. -/
def c1links : List Link :=
  [{ permno := 1, gvkey := some "000123", linkdt := 5, linkenddt := 20,
     cusip6 := none, linkprim := some "P", linktype := some "LU",
     linkprim_score := 1, linktype_rank := 2 }]

theorem C1_resolver_complete_witness :
    ((merge_and_rank c1names c1links).map MRow.key).count (1, 0, 10) = 1 := by
  have h := (C1_resolver_complete c1names c1links (1, 0, 10)).1
  rw [h]
  rfl

/-- C3: for every segment key having at least one candidate link with
`overlap_ok` true, the resolver output contains exactly one row for that key;
that row is one of the candidates, and it ranks at least as high as every
candidate under the ranking (`linkprim_score`, `linktype_rank`,
`cusip6_match`, `overlap_days`) descending with ascending `linkdt` as the
final deterministic tie-break (the comparator `mergedLE` restricted to a fixed
segment key). -/
theorem C3_best_link_selected (names : List Segment) (links : List Link)
    (k : Int × Int × Int)
    (h : ∃ r ∈ mergedList names links, MRow.overlap_ok' r = true ∧ MRow.key r = k) :
    ∃ best, ((merge_and_rank names links).filter (fun r => decide (MRow.key r = k))) = [best]
      ∧ best ∈ mergedList names links ∧ MRow.overlap_ok' best = true ∧ MRow.key best = k
      ∧ ∀ c ∈ mergedList names links, MRow.overlap_ok' c = true → MRow.key c = k →
          mergedLE best c = true := by
  rcases h with ⟨r0, hr0m, hr0ok, hr0k⟩
  have hr0S : r0 ∈ (oSort mergedLE (mergedList names links)).filter MRow.overlap_ok' :=
    List.mem_filter.mpr ⟨mem_oSort.mpr hr0m, hr0ok⟩
  have hkS : k ∈ ((oSort mergedLE (mergedList names links)).filter MRow.overlap_ok').map
      MRow.key := List.mem_map.mpr ⟨r0, hr0S, hr0k⟩
  have hkA : k ∈ (dropDupBy MRow.key
      ((oSort mergedLE (mergedList names links)).filter MRow.overlap_ok')).map MRow.key :=
    mem_map_dropDupBy.mpr hkS
  have hcount : ((dropDupBy MRow.key
      ((oSort mergedLE (mergedList names links)).filter MRow.overlap_ok')).map
        MRow.key).count k = 1 := by
    rw [count_map_dropDupBy]
    exact if_pos hkS
  have hlen : ((dropDupBy MRow.key
      ((oSort mergedLE (mergedList names links)).filter MRow.overlap_ok')).filter
        (fun r => decide (MRow.key r = k))).length = 1 := by
    rw [← List.countP_eq_length_filter]
    rw [List.count_eq_countP, List.countP_map] at hcount
    rw [← hcount]
    refine List.countP_congr ?_
    intro x _
    show decide (MRow.key x = k) = true ↔ (MRow.key x == k) = true
    simp
  rcases List.length_eq_one.mp hlen with ⟨best, hbest⟩
  have hbmemf : best ∈ (dropDupBy MRow.key
      ((oSort mergedLE (mergedList names links)).filter MRow.overlap_ok')).filter
        (fun r => decide (MRow.key r = k)) := by
    rw [hbest]
    exact List.mem_cons_self _ _
  have hbA : best ∈ dropDupBy MRow.key
      ((oSort mergedLE (mergedList names links)).filter MRow.overlap_ok') :=
    List.mem_of_mem_filter hbmemf
  have hbk : MRow.key best = k := by
    have := List.of_mem_filter hbmemf
    simpa using this
  have hbS : best ∈ (oSort mergedLE (mergedList names links)).filter MRow.overlap_ok' :=
    mem_of_mem_dropDupBy hbA
  have hbok : MRow.overlap_ok' best = true := List.of_mem_filter hbS
  have hbm : best ∈ mergedList names links :=
    (oSort_perm mergedLE (mergedList names links)).subset (List.mem_of_mem_filter hbS)
  refine ⟨best, ?_, hbm, hbok, hbk, ?_⟩
  · unfold merge_and_rank
    rw [List.filter_append]
    have hunm : (((dropDupBy segKey names).filter
        (fun s => decide (¬ segKey s ∈ (dropDupBy MRow.key
          ((oSort mergedLE (mergedList names links)).filter MRow.overlap_ok')).map
            MRow.key))).map
        (fun s => ({ seg := s, link := none } : MRow))).filter
          (fun r => decide (MRow.key r = k)) = [] := by
      rw [List.filter_eq_nil_iff]
      intro r hrmem
      rcases List.mem_map.mp hrmem with ⟨s, hsf, hrs⟩
      have hnotin : ¬ segKey s ∈ (dropDupBy MRow.key
          ((oSort mergedLE (mergedList names links)).filter MRow.overlap_ok')).map
            MRow.key := by
        have := List.of_mem_filter hsf
        simpa using this
      intro hkr
      simp only [decide_eq_true_eq] at hkr
      apply hnotin
      have hks : segKey s = k := by
        rw [← hkr, ← hrs]
        rfl
      rw [hks]
      exact hkA
    rw [hunm, hbest, List.append_nil]
  · intro c hcm hcok hck
    have hcS : c ∈ (oSort mergedLE (mergedList names links)).filter MRow.overlap_ok' :=
      List.mem_filter.mpr ⟨mem_oSort.mpr hcm, hcok⟩
    have hsorted : ((oSort mergedLE (mergedList names links)).filter
        MRow.overlap_ok').Pairwise (fun x y => mergedLE x y = true) :=
      (pairwise_oSort mergedLE_total (fun a b cc hab hbc => mergedLE_trans hab hbc)
        (mergedList names links)).filter _
    exact dropDupBy_min mergedLE_refl hsorted hbA hcS (hck.trans hbk.symm)

/-- Sample segment used to witness C3. -/
def c3names : List Segment :=
  [{ permno := 1, namedt := 0, nameendt := 3650, ncusip6 := some "123456" }]

/-- Sample links used to witness C3 (the second dominates on every ranking
column). -/
def c3links : List Link :=
  [{ permno := 1, gvkey := some "000111", linkdt := 0, linkenddt := 1825,
     cusip6 := none, linkprim := none, linktype := none,
     linkprim_score := 0, linktype_rank := 0 },
   { permno := 1, gvkey := some "000222", linkdt := 100, linkenddt := 4000,
     cusip6 := some "123456", linkprim := some "P", linktype := some "LU",
     linkprim_score := 1, linktype_rank := 2 }]

theorem C3_best_link_selected_witness :
    ∃ best, ((merge_and_rank c3names c3links).filter
        (fun r => decide (MRow.key r = (1, 0, 3650)))) = [best]
      ∧ best ∈ mergedList c3names c3links ∧ MRow.overlap_ok' best = true
      ∧ MRow.key best = (1, 0, 3650)
      ∧ ∀ c ∈ mergedList c3names c3links, MRow.overlap_ok' c = true →
          MRow.key c = (1, 0, 3650) → mergedLE best c = true :=
  C3_best_link_selected c3names c3links (1, 0, 3650) (by decide)

/-! ## PrimarySelector (`compute_primary_permno`)

The function reads only these columns of the time-segmented master:
`permno`, `gvkey`, `namedt`, `nameendt`, `linkprim_score`, `linktype_rank`,
`is_common` (a nullable boolean added by `add_flags_and_labels`). -/

/-- Resolved-segment row as consumed by `compute_primary_permno`. -/
structure TMRow where
  permno : Int
  gvkey : Option String
  namedt : Int
  nameendt : Int
  linkprim_score : Int
  linktype_rank : Int
  is_common : Option Bool
deriving DecidableEq, Repr

/-- Per-row segment day count `(nameendt - namedt).dt.days.clip(lower=0)`. -/
def TMRow.seg_days (r : TMRow) : Int :=
  max 0 (r.nameendt - r.namedt)

/-- Comparator on (gvkey, permno) pairs, ascending on both; the groupby key
order of `groupby(["gvkey", "permno"])`. -/
def pairLE (p q : String × Int) : Bool :=
  strThen p.1 q.1 [some p.2] [some q.2]

/-- Distinct (gvkey, permno) pairs over the rows with a gvkey
(`tm_for_primary[["permno", "gvkey"]].drop_duplicates()`), in the sorted
order produced by the groupby aggregation. -/
def tmPairs (tm : List TMRow) : List (String × Int) :=
  oSort pairLE (dropDupBy id (tm.filterMap (fun r => r.gvkey.map (fun g => (g, r.permno)))))

/-- Number of distinct gvkeys linked to a permno
(`pairs.groupby("permno")["gvkey"].nunique()`). -/
def perm_deg (tm : List TMRow) (p : Int) : Nat :=
  ((tmPairs tm).filter (fun q => decide (q.2 = p))).length

/-- Number of distinct permnos linked to a gvkey
(`pairs.groupby("gvkey")["permno"].nunique()`). -/
def gvkey_deg (tm : List TMRow) (g : String) : Nat :=
  ((tmPairs tm).filter (fun q => decide (q.1 = g))).length

/-- One-to-one flag of a (gvkey, permno) pair. -/
def one2one (tm : List TMRow) (g : String) (p : Int) : Bool :=
  decide (perm_deg tm p = 1) && decide (gvkey_deg tm g = 1)

/-- Rows of one (gvkey, permno) pair group. -/
def pairRows (tm : List TMRow) (g : String) (p : Int) : List TMRow :=
  tm.filter (fun r => decide (r.gvkey = some g) && decide (r.permno = p))

/-- Aggregated statistics per (gvkey, permno) pair
(`groupby(["gvkey", "permno"]).agg(...)`); the group is nonempty by
construction, so the `max` aggregations use `.getD 0` only as a formal
default. -/
structure AggRow where
  gvkey : String
  permno : Int
  one2one : Bool
  linkprim_score : Int
  linktype_rank : Int
  seg_days : Int
  has_common : Bool
deriving DecidableEq, Repr

/-- Aggregate one (gvkey, permno) pair. -/
def mkAgg (tm : List TMRow) (gp : String × Int) : AggRow :=
  { gvkey := gp.1
    permno := gp.2
    one2one := one2one tm gp.1 gp.2
    linkprim_score := (((pairRows tm gp.1 gp.2).map TMRow.linkprim_score).max?).getD 0
    linktype_rank := (((pairRows tm gp.1 gp.2).map TMRow.linktype_rank).max?).getD 0
    seg_days := ((pairRows tm gp.1 gp.2).map TMRow.seg_days).sum
    has_common := (pairRows tm gp.1 gp.2).any (fun r => decide (r.is_common = some true)) }

/-- The aggregated table `agg_stats`. -/
def agg_stats (tm : List TMRow) : List AggRow :=
  (tmPairs tm).map (mkAgg tm)

/-- Sort key of the primary-selection sort: the code sorts by
`["gvkey", "has_common", "one2one", "linkprim_score", "linktype_rank",
"seg_days"]` with gvkey ascending and every other column descending. -/
def AggRow.sortKey (a : AggRow) : List (Option Int) :=
  [some (- (if a.has_common then 1 else 0)), some (- (if a.one2one then 1 else 0)),
   some (- a.linkprim_score), some (- a.linktype_rank), some (- a.seg_days)]

/-- Comparator of the primary-selection sort. -/
def aggLE (x y : AggRow) : Bool :=
  strThen x.gvkey y.gvkey x.sortKey y.sortKey

/-- Model of `compute_primary_permno`'s `primary_map`: sort the aggregated
pairs, keep the first (best) row per gvkey (`groupby("gvkey").first()`), and
return the (gvkey, primary permno) table. -/
def compute_primary_permno (tm : List TMRow) : List (String × Int) :=
  (dropDupBy AggRow.gvkey (oSort aggLE (agg_stats tm))).map (fun a => (a.gvkey, a.permno))

/-- Lookup in the primary map; models the left merge of `time_master` with
`primary_map` on gvkey. -/
def primary_lookup (pm : List (String × Int)) (g : String) : Option Int :=
  (pm.find? (fun q => decide (q.1 = g))).map (fun q => q.2)

/-- The `is_primary_permno` flag column
(`time_master["permno"] == time_master["primary_permno"]`): rows whose gvkey
is missing, or absent from the primary map, get a missing `primary_permno`
and hence a missing (NA) flag. -/
def is_primary_permno (tm : List TMRow) (r : TMRow) : Option Bool :=
  match r.gvkey with
  | none => none
  | some g => (primary_lookup (compute_primary_permno tm) g).map
      (fun pp => decide (r.permno = pp))

theorem keyLE_swap (a₁ a₂ b : Option Int) (r₁ r₂ : List (Option Int)) :
    keyLE (a₁ :: b :: r₁) (a₂ :: b :: r₂) = keyLE (b :: a₁ :: r₁) (b :: a₂ :: r₂) := by
  simp only [keyLE, optLE_refl, if_true]

theorem mem_dropDupBy_id [DecidableEq α] {x : α} {l : List α} :
    x ∈ dropDupBy id l ↔ x ∈ l := by
  have h := @mem_map_dropDupBy α α _ id x l
  simpa using h

theorem mem_tmPairs {tm : List TMRow} {g : String} {p : Int} :
    (g, p) ∈ tmPairs tm ↔ ∃ r ∈ tm, r.gvkey = some g ∧ r.permno = p := by
  unfold tmPairs
  rw [mem_oSort, mem_dropDupBy_id, List.mem_filterMap]
  constructor
  · intro ⟨r, hr, hmap⟩
    cases hg : r.gvkey with
    | none => rw [hg] at hmap; simp at hmap
    | some g0 =>
      rw [hg] at hmap
      simp only [Option.map_some', Option.some.injEq, Prod.mk.injEq] at hmap
      exact ⟨r, hr, by rw [hg, hmap.1], hmap.2⟩
  · intro ⟨r, hr, hg, hp⟩
    exact ⟨r, hr, by rw [hg, hp]; rfl⟩

theorem gvkey_deg_eq_one {tm : List TMRow} {g : String} (h : gvkey_deg tm g = 1) :
    ∀ p q : Int, (g, p) ∈ tmPairs tm → (g, q) ∈ tmPairs tm → p = q := by
  intro p q hp hq
  unfold gvkey_deg at h
  rcases List.length_eq_one.mp h with ⟨x, hx⟩
  have hp' : ((g, p) : String × Int) ∈ (tmPairs tm).filter (fun qq => decide (qq.1 = g)) :=
    List.mem_filter.mpr ⟨hp, by simp⟩
  have hq' : ((g, q) : String × Int) ∈ (tmPairs tm).filter (fun qq => decide (qq.1 = g)) :=
    List.mem_filter.mpr ⟨hq, by simp⟩
  rw [hx] at hp' hq'
  have hp2 : ((g, p) : String × Int) = x := by simpa using hp'
  have hq2 : ((g, q) : String × Int) = x := by simpa using hq'
  have h3 : ((g, p) : String × Int) = (g, q) := hp2.trans hq2.symm
  simpa using h3

theorem agg_one2one_const {tm : List TMRow} {x y : AggRow}
    (hx : x ∈ agg_stats tm) (hy : y ∈ agg_stats tm) (hg : x.gvkey = y.gvkey) :
    x.one2one = y.one2one := by
  rcases List.mem_map.mp hx with ⟨gpx, hgpx, hmx⟩
  rcases List.mem_map.mp hy with ⟨gpy, hgpy, hmy⟩
  subst hmx
  subst hmy
  show one2one tm gpx.1 gpx.2 = one2one tm gpy.1 gpy.2
  have hg' : gpx.1 = gpy.1 := hg
  by_cases hdeg : gvkey_deg tm gpx.1 = 1
  · have hmx' : (gpx.1, gpx.2) ∈ tmPairs tm := by
      cases gpx
      exact hgpx
    have hmy' : (gpx.1, gpy.2) ∈ tmPairs tm := by
      rw [hg']
      cases gpy
      exact hgpy
    have hpq : gpx.2 = gpy.2 := gvkey_deg_eq_one hdeg gpx.2 gpy.2 hmx' hmy'
    rw [hg', hpq]
  · unfold one2one
    have h1 : decide (gvkey_deg tm gpx.1 = 1) = false := decide_eq_false hdeg
    have h2 : decide (gvkey_deg tm gpy.1 = 1) = false := by rw [← hg']; exact h1
    rw [h1, h2, Bool.and_false, Bool.and_false]

theorem aggLE_total (x y : AggRow) : aggLE x y = true ∨ aggLE y x = true :=
  strThen_total _ _ _ _

theorem aggLE_trans {x y z : AggRow} (h₁ : aggLE x y = true) (h₂ : aggLE y z = true) :
    aggLE x z = true :=
  strThen_trans h₁ h₂

theorem aggLE_refl (x : AggRow) : aggLE x x = true :=
  strThen_refl _ _

theorem find?_of_filter_singleton {p : α → Bool} {l : List α} {x : α}
    (h : l.filter p = [x]) : l.find? p = some x := by
  induction l with
  | nil => simp at h
  | cons a t ih =>
    rw [List.filter_cons] at h
    by_cases hp : p a = true
    · rw [if_pos hp] at h
      injection h with h1 h2
      rw [List.find?_cons_of_pos _ hp, h1]
    · rw [if_neg hp] at h
      rw [List.find?_cons_of_neg _ hp]
      exact ih h

/-- Shared characterization of the primary selection: for every gvkey with at
least one linked row, the deduplicated sorted aggregation holds exactly one
row for that gvkey; it is one of the aggregated pairs, the primary map sends
the gvkey to its permno, and it is ranked (by the code comparator) at least as
high as every aggregated pair of that gvkey. -/
theorem primary_best (tm : List TMRow) (g : String)
    (h : ∃ r ∈ tm, r.gvkey = some g) :
    ∃ best, ((dropDupBy AggRow.gvkey (oSort aggLE (agg_stats tm))).filter
        (fun a => decide (a.gvkey = g))) = [best]
      ∧ best ∈ agg_stats tm ∧ best.gvkey = g
      ∧ primary_lookup (compute_primary_permno tm) g = some best.permno
      ∧ ∀ a ∈ agg_stats tm, a.gvkey = g → aggLE best a = true := by
  rcases h with ⟨r, hr, hg⟩
  have hpair : (g, r.permno) ∈ tmPairs tm := mem_tmPairs.mpr ⟨r, hr, hg, rfl⟩
  have hagg : mkAgg tm (g, r.permno) ∈ agg_stats tm :=
    List.mem_map.mpr ⟨(g, r.permno), hpair, rfl⟩
  have hkey : g ∈ (oSort aggLE (agg_stats tm)).map AggRow.gvkey := by
    refine List.mem_map.mpr ⟨mkAgg tm (g, r.permno), mem_oSort.mpr hagg, rfl⟩
  have hcount : ((dropDupBy AggRow.gvkey (oSort aggLE (agg_stats tm))).map
      AggRow.gvkey).count g = 1 := by
    rw [count_map_dropDupBy]
    exact if_pos hkey
  have hlen : ((dropDupBy AggRow.gvkey (oSort aggLE (agg_stats tm))).filter
      (fun a => decide (a.gvkey = g))).length = 1 := by
    rw [← List.countP_eq_length_filter]
    rw [List.count_eq_countP, List.countP_map] at hcount
    rw [← hcount]
    refine List.countP_congr ?_
    intro x _
    show decide (x.gvkey = g) = true ↔ (x.gvkey == g) = true
    simp
  rcases List.length_eq_one.mp hlen with ⟨best, hbest⟩
  have hbmemf : best ∈ (dropDupBy AggRow.gvkey (oSort aggLE (agg_stats tm))).filter
      (fun a => decide (a.gvkey = g)) := by
    rw [hbest]
    exact List.mem_cons_self _ _
  have hbA : best ∈ dropDupBy AggRow.gvkey (oSort aggLE (agg_stats tm)) :=
    List.mem_of_mem_filter hbmemf
  have hbg : best.gvkey = g := by
    have := List.of_mem_filter hbmemf
    simpa using this
  have hbagg : best ∈ agg_stats tm :=
    (oSort_perm aggLE (agg_stats tm)).subset (mem_of_mem_dropDupBy hbA)
  refine ⟨best, hbest, hbagg, hbg, ?_, ?_⟩
  · unfold primary_lookup compute_primary_permno
    rw [List.find?_map]
    have hfind : (dropDupBy AggRow.gvkey (oSort aggLE (agg_stats tm))).find?
        ((fun q => decide (q.1 = g)) ∘ fun a => (a.gvkey, a.permno)) = some best := by
      have hcongr : ((fun (q : String × Int) => decide (q.1 = g)) ∘
          fun (a : AggRow) => (a.gvkey, a.permno)) = fun a => decide (a.gvkey = g) := rfl
      rw [hcongr]
      exact find?_of_filter_singleton hbest
    rw [hfind]
    rfl
  · intro a ha hag
    have haS : a ∈ oSort aggLE (agg_stats tm) := mem_oSort.mpr ha
    have hsorted : (oSort aggLE (agg_stats tm)).Pairwise (fun x y => aggLE x y = true) :=
      pairwise_oSort aggLE_total (fun x y z h₁ h₂ => aggLE_trans h₁ h₂) (agg_stats tm)
    exact dropDupBy_min aggLE_refl hsorted hbA haS (hag.trans hbg.symm)

/-- Ranking of PrimarySelector exactly as the specification words it:
one-to-one flag first, then common-share flag, then maximum link-primary tier,
maximum link-type tier, and total covered days, all descending.  The code's
own sort key (`AggRow.sortKey`) lists `has_common` before `one2one`; the two
orders select the same pair because the one-to-one flag is constant within a
gvkey group. -/
def specPrimaryRankKey (a : AggRow) : List (Option Int) :=
  [some (- (if a.one2one then 1 else 0)), some (- (if a.has_common then 1 else 0)),
   some (- a.linkprim_score), some (- a.linktype_rank), some (- a.seg_days)]

/-- C4: for every gvkey with at least one linked resolved segment, the
security key selected by `compute_primary_permno` is the permno of an
aggregated (gvkey, permno) pair that is top-ranked under the claimed ordering:
one-to-one flag, then common-share flag, then max link-primary tier, max
link-type tier and total covered days, all descending.  (The code sorts
`has_common` before `one2one`, but `one2one` is constant within each gvkey
group, so the two rankings coincide on every group.) -/
theorem C4_primary_top_ranked (tm : List TMRow) (g : String)
    (h : ∃ r ∈ tm, r.gvkey = some g) :
    ∃ best ∈ agg_stats tm, best.gvkey = g
      ∧ primary_lookup (compute_primary_permno tm) g = some best.permno
      ∧ ∀ a ∈ agg_stats tm, a.gvkey = g →
          keyLE (specPrimaryRankKey best) (specPrimaryRankKey a) = true := by
  rcases primary_best tm g h with ⟨best, hfilter, hbagg, hbg, hlook, hmax⟩
  refine ⟨best, hbagg, hbg, hlook, ?_⟩
  intro a ha hag
  have hcode := hmax a ha hag
  have hkeys : keyLE (AggRow.sortKey best) (AggRow.sortKey a) = true := by
    rcases strThen_iff.mp hcode with hlt | ⟨_, hk⟩
    · rw [hbg, hag, strLtB_irrefl] at hlt
      exact absurd hlt (by simp)
    · exact hk
  have ho : a.one2one = best.one2one :=
    agg_one2one_const ha hbagg (by rw [hag, hbg])
  unfold specPrimaryRankKey
  rw [ho]
  unfold AggRow.sortKey at hkeys
  rw [ho] at hkeys
  rw [← keyLE_swap]
  exact hkeys

/-- Sample resolved segments used to witness C4 and C5: gvkey `"000002"` is
linked to two permnos, one with the common-share flag. -/
def c4tm : List TMRow :=
  [{ permno := 10, gvkey := some "000002", namedt := 0, nameendt := 100,
     linkprim_score := 1, linktype_rank := 2, is_common := some true },
   { permno := 11, gvkey := some "000002", namedt := 0, nameendt := 500,
     linkprim_score := 0, linktype_rank := 1, is_common := some false },
   { permno := 11, gvkey := some "000003", namedt := 500, nameendt := 900,
     linkprim_score := 1, linktype_rank := 2, is_common := some true }]

theorem C4_primary_top_ranked_witness :
    ∃ best ∈ agg_stats c4tm, best.gvkey = "000002"
      ∧ primary_lookup (compute_primary_permno c4tm) "000002" = some best.permno
      ∧ ∀ a ∈ agg_stats c4tm, a.gvkey = "000002" →
          keyLE (specPrimaryRankKey best) (specPrimaryRankKey a) = true :=
  C4_primary_top_ranked c4tm "000002" (by decide)

/-- C5: every gvkey with at least one linked resolved segment receives exactly
one entry in the primary map, whose permno is the permno of one of that
gvkey's own rows; and any two rows of the same gvkey whose
`is_primary_permno` flag is true carry the same permno (no gvkey has two
distinct security keys flagged primary). -/
theorem C5_primary_unique (tm : List TMRow) (g : String) :
    ((∃ r ∈ tm, r.gvkey = some g) →
      ((compute_primary_permno tm).filter (fun q => decide (q.1 = g))).length = 1
      ∧ ∃ p, primary_lookup (compute_primary_permno tm) g = some p
          ∧ ∃ r ∈ tm, r.gvkey = some g ∧ r.permno = p)
    ∧ (∀ r₁ ∈ tm, ∀ r₂ ∈ tm, r₁.gvkey = some g → r₂.gvkey = some g →
        is_primary_permno tm r₁ = some true → is_primary_permno tm r₂ = some true →
        r₁.permno = r₂.permno) := by
  constructor
  · intro h
    rcases primary_best tm g h with ⟨best, hfilter, hbagg, hbg, hlook, hmax⟩
    constructor
    · unfold compute_primary_permno
      rw [List.filter_map]
      rw [List.length_map]
      have hcongr : ((fun (q : String × Int) => decide (q.1 = g)) ∘
          fun (a : AggRow) => (a.gvkey, a.permno)) = fun a : AggRow => decide (a.gvkey = g) :=
        rfl
      rw [hcongr, hfilter]
      rfl
    · refine ⟨best.permno, hlook, ?_⟩
      rcases List.mem_map.mp hbagg with ⟨gp, hgp, hmk⟩
      have hgp' : (gp.1, gp.2) ∈ tmPairs tm := by
        cases gp
        exact hgp
      rcases mem_tmPairs.mp hgp' with ⟨r, hr, hg1, hp1⟩
      refine ⟨r, hr, ?_, ?_⟩
      · rw [hg1]
        have hbg1 : gp.1 = best.gvkey := by
          rw [← hmk]
          rfl
        rw [hbg1, hbg]
      · have hbp : gp.2 = best.permno := by
          rw [← hmk]
          rfl
        rw [hp1, hbp]

  · intro r₁ h₁ r₂ h₂ hg₁ hg₂ hp₁ hp₂
    have hp₁' : is_primary_permno tm r₁ = (primary_lookup (compute_primary_permno tm) g).map
        (fun pp => decide (r₁.permno = pp)) := by
      unfold is_primary_permno
      rw [hg₁]
    have hp₂' : is_primary_permno tm r₂ = (primary_lookup (compute_primary_permno tm) g).map
        (fun pp => decide (r₂.permno = pp)) := by
      unfold is_primary_permno
      rw [hg₂]
    rw [hp₁'] at hp₁
    rw [hp₂'] at hp₂
    cases hl : primary_lookup (compute_primary_permno tm) g with
    | none =>
      rw [hl] at hp₁
      simp at hp₁
    | some pp =>
      rw [hl] at hp₁ hp₂
      simp only [Option.map_some', Option.some.injEq] at hp₁ hp₂
      have e₁ : r₁.permno = pp := of_decide_eq_true hp₁
      have e₂ : r₂.permno = pp := of_decide_eq_true hp₂
      rw [e₁, e₂]

theorem C5_primary_unique_witness :
    ((compute_primary_permno c4tm).filter (fun q => decide (q.1 = "000003"))).length = 1
    ∧ ∃ p, primary_lookup (compute_primary_permno c4tm) "000003" = some p
        ∧ ∃ r ∈ c4tm, r.gvkey = some "000003" ∧ r.permno = p :=
  (C5_primary_unique c4tm "000003").1 (by decide)

/-! ## Provider-matching framework (`base_mapper.py`, `refinitiv_mapper.py`)

A Provider Record carries its already-computed validity window
(`valid_from`/`valid_to`, the calendar year bounds built in
`extract_identifiers`); the security-master row carries the columns
`load_security_master` reads (gvkey is numeric there, `is_common` and
`is_primary_permno` are coerced booleans with missing treated as false,
`exchcd` stays nullable). -/

/-- Security-master row as loaded by `BaseESGMapper.load_security_master`. -/
structure SMRow where
  permno : Int
  gvkey : Option Int
  namedt : Int
  nameendt : Int
  ncusip6 : Option String
  ticker : Option String
  is_common : Bool
  is_primary_permno : Bool
  exchcd : Option Int
  linkprim_score : Option Int
  linktype_rank : Option Int
deriving DecidableEq, Repr

/-- Provider record (one `orgpermid`-year observation after
`load_provider_data` and `extract_identifiers`). -/
structure ProviderRow where
  orgpermid : String
  year : Int
  cusip : Option String
  isin : Option String
  valid_from : Int
  valid_to : Int
deriving DecidableEq, Repr

/-- Model of `extract_cusip6_from_isin`: keep the ISIN only when its first two
characters are `"US"` or `"CA"` and its length is at least 12, then slice
characters 2..8; otherwise (including missing) return missing. -/
def extract_cusip6_from_isin (isin : Option String) : Option String :=
  match isin with
  | none => none
  | some s =>
    if (takeStr 2 s = "US" ∨ takeStr 2 s = "CA") ∧ 12 ≤ s.data.length
    then some (String.mk ((s.data.drop 2).take 6)) else none

/-- `cusip6_from_cusip` column: `df["cusip"].str.slice(0, 6)`. -/
def cusip6_from_cusip (r : ProviderRow) : Option String :=
  r.cusip.map (takeStr 6)

/-- `cusip6_from_isin` column. -/
def cusip6_from_isin (r : ProviderRow) : Option String :=
  extract_cusip6_from_isin r.isin

/-- Joined candidate row (provider record × security-master segment) with the
strategy label assigned by `perform_matching` (empty before assignment). -/
structure MatchRow where
  prov : ProviderRow
  sm : SMRow
  match_src : String
deriving DecidableEq, Repr

namespace MatchRow

/-- Computed `overlap_days` column of a candidate join. -/
def overlap_days (m : MatchRow) : Int :=
  calculate_overlap_days m.prov.valid_from m.prov.valid_to m.sm.namedt m.sm.nameendt

end MatchRow

/-- Strategy weights of `calculate_match_score` (`source_scores`). -/
def source_score (src : String) : Int :=
  if src = "CUSIP6" then 5
  else if src = "ISIN_CUSIP6" then 4
  else if src = "ISIN" then 6
  else if src = "TICKER" then 3
  else 0

/-- Preferred exchange codes (`PREFERRED_EXCHANGES = {1, 3}`). -/
def PREFERRED_EXCHANGES : List Int := [1, 3]

/-- Model of `calculate_match_score`, row-wise: strategy weight, +3 for a
common share class, +2 for the primary listing, +1 for a preferred exchange,
one point per full overlapped year capped at 3, plus the pass-through link
quality tiers (missing counts 0). -/
def match_score (m : MatchRow) : Int :=
  source_score m.match_src
  + (if m.sm.is_common then 3 else 0)
  + (if m.sm.is_primary_permno then 2 else 0)
  + (match m.sm.exchcd with
     | some e => if e ∈ PREFERRED_EXCHANGES then 1 else 0
     | none => 0)
  + min 3 (m.overlap_days / 365)
  + m.sm.linkprim_score.getD 0
  + m.sm.linktype_rank.getD 0

/-- Group key of `select_best_match`: `[entity_id_col, "year"]`. -/
def MatchRow.key (m : MatchRow) : String × Int :=
  (m.prov.orgpermid, m.prov.year)

/-- Rank key of `select_best_match` after the group key:
`["match_score", "overlap_days", "is_primary_permno", "is_common", "exchcd",
"namedt"]` with the first four descending and `exchcd` (NaN last) and
`namedt` ascending. -/
def selKey (m : MatchRow) : List (Option Int) :=
  [some m.prov.year, some (- match_score m), some (- m.overlap_days),
   some (- (if m.sm.is_primary_permno then 1 else 0)),
   some (- (if m.sm.is_common then 1 else 0)),
   m.sm.exchcd, some m.sm.namedt]

/-- Comparator of the `select_best_match` sort (`key_cols + rank_cols`). -/
def selLE (x y : MatchRow) : Bool :=
  strThen x.prov.orgpermid y.prov.orgpermid (selKey x) (selKey y)

/-- Model of `select_best_match`: stable-sort by group key plus rank columns,
keep the first row per (entity id, year) group. -/
def select_best_match (df : List MatchRow) : List MatchRow :=
  dropDupBy MatchRow.key (oSort selLE df)

/-- Strategy label assignment (`matches["match_src"] = src`). -/
def set_src (src : String) (m : MatchRow) : MatchRow :=
  { m with match_src := src }

/-- Model of `match_by_cusip6`: keep provider records with the identifier
present and not already matched (the code skips the exclusion merge when
`already_matched` is empty, which equals filtering against an empty key set),
inner-join to the master on `ncusip6`, and keep joins with positive overlap. -/
def match_by_cusip6 (provider : List ProviderRow) (sm : List SMRow)
    (idcol : ProviderRow → Option String) (already : List MatchRow) : List MatchRow :=
  let candidates := (provider.filter (fun r => (idcol r).isSome)).filter
    (fun r => decide (¬ ∃ m ∈ already, m.prov.orgpermid = r.orgpermid
      ∧ m.prov.year = r.year))
  (candidates.flatMap (fun r =>
    (sm.filter (fun s => decide (s.ncusip6 = idcol r))).map
      (fun s => ({ prov := r, sm := s, match_src := "" } : MatchRow)))).filter
    (fun m => decide (0 < MatchRow.overlap_days m))

/-- Final output ordering `combined.sort_values(["orgpermid", "year"])`. -/
def outLE (x y : MatchRow) : Bool :=
  strThen x.prov.orgpermid y.prov.orgpermid [some x.prov.year] [some y.prov.year]

/-- Model of `RefinitivMapper.perform_matching`: CUSIP6 strategy first, then
the ISIN-derived CUSIP6 strategy restricted to records not already matched;
each strategy labels and scores its candidates and keeps the best per
(entity id, year); matched rows of both strategies are concatenated and
sorted.  Records with zero candidates under both strategies appear nowhere in
the result. -/
def perform_matching (provider : List ProviderRow) (sm : List SMRow) : List MatchRow :=
  let cusip_matches := match_by_cusip6 provider sm cusip6_from_cusip []
  let best_cusip := select_best_match (cusip_matches.map (set_src "CUSIP6"))
  let already := if cusip_matches = [] then [] else best_cusip
  let isin_matches := match_by_cusip6 provider sm cusip6_from_isin already
  let best_isin := select_best_match (isin_matches.map (set_src "ISIN_CUSIP6"))
  oSort outLE ((if cusip_matches = [] then [] else best_cusip)
    ++ (if isin_matches = [] then [] else best_isin))

/-- Crosswalk entry (`create_crosswalk` output row). -/
structure CrossRow where
  orgpermid : String
  gvkey : Int
  total_score : Int
  years_covered : Nat
  max_overlap_days : Int
  primary_permno : Option Int
  first_seen : Int
  last_seen : Int
deriving DecidableEq, Repr

/-- Distinct (entity id, gvkey) pairs of the gvkey-carrying matches, in
groupby key order. -/
def crossPairs (ms : List MatchRow) : List (String × Int) :=
  oSort pairLE (dropDupBy id
    (ms.filterMap (fun m => m.sm.gvkey.map (fun g => (m.prov.orgpermid, g)))))

/-- Rows of one (entity id, gvkey) group. -/
def crossGroup (ms : List MatchRow) (e : String) (g : Int) : List MatchRow :=
  ms.filter (fun m => decide (m.prov.orgpermid = e) && decide (m.sm.gvkey = some g))

/-- Most frequent permno of a group (`value_counts().index[0]`): uniques in
first-appearance order, first one with the maximal count (the pandas order
among equal counts is not contractual). -/
def modePermno (grp : List MatchRow) : Option Int :=
  let vals := grp.map (fun m => m.sm.permno)
  let counts : List (Int × Nat) := (dropDupBy id vals).map (fun v => (v, vals.count v))
  let mx : Nat := ((counts.map (fun q => q.2)).max?).getD 0
  (counts.find? (fun q => decide (q.2 = mx))).map (fun q => q.1)

/-- Aggregate one (entity id, gvkey) group
(`groupby([entity, "gvkey"]).agg(...)`); groups are nonempty by construction,
so the `max`/`min` aggregations use `.getD 0` only as a formal default. -/
def mkCross (ms : List MatchRow) (eg : String × Int) : CrossRow :=
  { orgpermid := eg.1
    gvkey := eg.2
    total_score := ((crossGroup ms eg.1 eg.2).map match_score).sum
    years_covered := (dropDupBy id ((crossGroup ms eg.1 eg.2).map
      (fun m => m.prov.year))).length
    max_overlap_days := (((crossGroup ms eg.1 eg.2).map MatchRow.overlap_days).max?).getD 0
    primary_permno := modePermno (crossGroup ms eg.1 eg.2)
    first_seen := (((crossGroup ms eg.1 eg.2).map (fun m => m.sm.namedt)).min?).getD 0
    last_seen := (((crossGroup ms eg.1 eg.2).map (fun m => m.sm.nameendt)).max?).getD 0 }

/-- Comparator of the crosswalk selection sort
(`[entity, "total_score", "years_covered", "max_overlap_days"]`, entity
ascending, evidence columns descending). -/
def crossLE (x y : CrossRow) : Bool :=
  strThen x.orgpermid y.orgpermid
    [some (- x.total_score), some (- (x.years_covered : Int)), some (- x.max_overlap_days)]
    [some (- y.total_score), some (- (y.years_covered : Int)), some (- y.max_overlap_days)]

/-- Model of `create_crosswalk`: aggregate matches per (entity id, gvkey),
rank each entity's candidate gvkeys by accumulated evidence, keep the top
one per entity id. -/
def create_crosswalk (ms : List MatchRow) : List CrossRow :=
  dropDupBy CrossRow.orgpermid (oSort crossLE ((crossPairs ms).map (mkCross ms)))

/-- Generic top-1-per-group selection: sort by a total preorder and keep the
first row per key; the kept row of a nonempty group is unique, comes from the
input, and compares at-least-as-good against every group member. -/
theorem select_top_one [DecidableEq β] [BEq β] [LawfulBEq β]
    (key : α → β) (le : α → α → Bool)
    (htot : ∀ a b, le a b = true ∨ le b a = true)
    (htrans : ∀ a b c, le a b = true → le b c = true → le a c = true)
    (hrefl : ∀ a, le a a = true)
    (df : List α) (k : β) (h : k ∈ df.map key) :
    ∃ best, ((dropDupBy key (oSort le df)).filter (fun a => decide (key a = k))) = [best]
      ∧ best ∈ df ∧ key best = k
      ∧ ∀ c ∈ df, key c = k → le best c = true := by
  have hkey : k ∈ (oSort le df).map key := by
    rcases List.mem_map.mp h with ⟨a, ha, hk⟩
    exact List.mem_map.mpr ⟨a, mem_oSort.mpr ha, hk⟩
  have hcount : ((dropDupBy key (oSort le df)).map key).count k = 1 := by
    rw [count_map_dropDupBy]
    exact if_pos hkey
  have hlen : ((dropDupBy key (oSort le df)).filter
      (fun a => decide (key a = k))).length = 1 := by
    rw [← List.countP_eq_length_filter]
    rw [List.count_eq_countP, List.countP_map] at hcount
    rw [← hcount]
    refine List.countP_congr ?_
    intro x _
    show decide (key x = k) = true ↔ (key x == k) = true
    simp
  rcases List.length_eq_one.mp hlen with ⟨best, hbest⟩
  have hbmemf : best ∈ (dropDupBy key (oSort le df)).filter
      (fun a => decide (key a = k)) := by
    rw [hbest]
    exact List.mem_cons_self _ _
  have hbA : best ∈ dropDupBy key (oSort le df) := List.mem_of_mem_filter hbmemf
  have hbk : key best = k := by
    have := List.of_mem_filter hbmemf
    simpa using this
  have hbdf : best ∈ df := (oSort_perm le df).subset (mem_of_mem_dropDupBy hbA)
  refine ⟨best, hbest, hbdf, hbk, ?_⟩
  intro c hc hck
  exact dropDupBy_min hrefl (pairwise_oSort htot htrans df) hbA (mem_oSort.mpr hc)
    (hck.trans hbk.symm)

theorem selLE_total (x y : MatchRow) : selLE x y = true ∨ selLE y x = true :=
  strThen_total _ _ _ _

theorem selLE_trans {x y z : MatchRow} (h₁ : selLE x y = true) (h₂ : selLE y z = true) :
    selLE x z = true :=
  strThen_trans h₁ h₂

theorem selLE_refl (x : MatchRow) : selLE x x = true :=
  strThen_refl _ _

theorem mem_match_by_cusip6 {provider : List ProviderRow} {sm : List SMRow}
    {idcol : ProviderRow → Option String} {already : List MatchRow} {m : MatchRow}
    (h : m ∈ match_by_cusip6 provider sm idcol already) :
    m.prov ∈ provider ∧ (idcol m.prov).isSome = true
    ∧ (¬ ∃ x ∈ already, x.prov.orgpermid = m.prov.orgpermid ∧ x.prov.year = m.prov.year)
    ∧ m.sm ∈ sm ∧ m.sm.ncusip6 = idcol m.prov ∧ 0 < MatchRow.overlap_days m
    ∧ m.match_src = "" := by
  simp only [match_by_cusip6] at h
  have hov : 0 < MatchRow.overlap_days m := by
    have := List.of_mem_filter h
    simpa using this
  have h1 := List.mem_of_mem_filter h
  rcases List.mem_flatMap.mp h1 with ⟨r, hr, hm⟩
  rcases List.mem_map.mp hm with ⟨s, hs, hms⟩
  have hrex := List.of_mem_filter hr
  simp only [decide_eq_true_eq] at hrex
  have hr1 := List.mem_of_mem_filter hr
  have hrid : (idcol r).isSome = true := (List.mem_filter.mp hr1).2
  have hrp : r ∈ provider := (List.mem_filter.mp hr1).1
  have hsnc : s.ncusip6 = idcol r := by
    have := List.of_mem_filter hs
    simpa using this
  have hssm : s ∈ sm := List.mem_of_mem_filter hs
  subst hms
  exact ⟨hrp, hrid, hrex, hssm, hsnc, hov, rfl⟩

theorem match_by_cusip6_mem {provider : List ProviderRow} {sm : List SMRow}
    {idcol : ProviderRow → Option String} {already : List MatchRow}
    {r : ProviderRow} {s : SMRow}
    (hr : r ∈ provider) (hid : (idcol r).isSome = true)
    (hexc : ¬ ∃ x ∈ already, x.prov.orgpermid = r.orgpermid ∧ x.prov.year = r.year)
    (hs : s ∈ sm) (hc : s.ncusip6 = idcol r)
    (hov : 0 < calculate_overlap_days r.valid_from r.valid_to s.namedt s.nameendt) :
    ({ prov := r, sm := s, match_src := "" } : MatchRow)
      ∈ match_by_cusip6 provider sm idcol already := by
  simp only [match_by_cusip6]
  refine List.mem_filter.mpr ⟨?_, by simpa [MatchRow.overlap_days] using hov⟩
  refine List.mem_flatMap.mpr ⟨r, ?_, ?_⟩
  · refine List.mem_filter.mpr ⟨List.mem_filter.mpr ⟨hr, hid⟩, ?_⟩
    simpa using hexc
  · exact List.mem_map.mpr ⟨s, List.mem_filter.mpr ⟨hs, by simp [hc]⟩, rfl⟩

/-- C10: the CUSIP6-from-ISIN extraction returns the six characters at
positions 2..8 exactly when the ISIN starts with `"US"` or `"CA"` and has
length at least 12; any other ISIN (or a missing one) yields missing, so the
ISIN-derived strategy can never produce a candidate from a non-North-American
ISIN. -/
theorem C10_isin_cusip6 (s : String) :
    ((takeStr 2 s ≠ "US" ∧ takeStr 2 s ≠ "CA") ∨ s.data.length < 12 →
      extract_cusip6_from_isin (some s) = none)
    ∧ ((takeStr 2 s = "US" ∨ takeStr 2 s = "CA") → 12 ≤ s.data.length →
      extract_cusip6_from_isin (some s) = some (String.mk ((s.data.drop 2).take 6)))
    ∧ extract_cusip6_from_isin none = none
    ∧ (∀ (provider : List ProviderRow) (sm : List SMRow) (already : List MatchRow)
        (m : MatchRow),
        m ∈ match_by_cusip6 provider sm cusip6_from_isin already →
        ∃ t, m.prov.isin = some t ∧ (takeStr 2 t = "US" ∨ takeStr 2 t = "CA")
          ∧ 12 ≤ t.data.length) := by
  refine ⟨?_, ?_, rfl, ?_⟩
  · intro h
    show (if (takeStr 2 s = "US" ∨ takeStr 2 s = "CA") ∧ 12 ≤ s.data.length
        then some (String.mk ((s.data.drop 2).take 6)) else none) = none
    rcases h with ⟨h1, h2⟩ | h
    · rw [if_neg]
      rintro ⟨hp, _⟩
      rcases hp with hp | hp
      · exact h1 hp
      · exact h2 hp
    · rw [if_neg]
      rintro ⟨_, hl⟩
      omega
  · intro hp hl
    show (if (takeStr 2 s = "US" ∨ takeStr 2 s = "CA") ∧ 12 ≤ s.data.length
        then some (String.mk ((s.data.drop 2).take 6)) else none)
      = some (String.mk ((s.data.drop 2).take 6))
    rw [if_pos ⟨hp, hl⟩]
  · intro provider sm already m hm
    have hsome := (mem_match_by_cusip6 hm).2.1
    unfold cusip6_from_isin extract_cusip6_from_isin at hsome
    cases hi : m.prov.isin with
    | none =>
      rw [hi] at hsome
      simp at hsome
    | some t =>
      rw [hi] at hsome
      by_cases hc : (takeStr 2 t = "US" ∨ takeStr 2 t = "CA") ∧ 12 ≤ t.data.length
      · exact ⟨t, rfl, hc.1, hc.2⟩
      · have hsome' : (if (takeStr 2 t = "US" ∨ takeStr 2 t = "CA") ∧ 12 ≤ t.data.length
            then some (String.mk ((t.data.drop 2).take 6)) else none).isSome = true := hsome
        rw [if_neg hc] at hsome'
        simp at hsome'

theorem C10_isin_cusip6_witness :
    extract_cusip6_from_isin (some "US0378331005") = some "037833"
    ∧ extract_cusip6_from_isin (some "GB0002374006") = none := by
  constructor
  · have h1 := (C10_isin_cusip6 "US0378331005").2.1 (Or.inl (by decide)) (by decide)
    rw [h1]
    rfl
  · exact (C10_isin_cusip6 "GB0002374006").1 (Or.inl ⟨by decide, by decide⟩)

/-- Ranking of MatchEngine selection exactly as the claim words it: score,
then overlap-day count (descending), then common-share flag, then
primary-listing flag, then segment start date ascending.  The code's own rank
key (`selKey`) orders `is_primary_permno` before `is_common` and also
tie-breaks on the exchange code before the start date. -/
def specSelKey (m : MatchRow) : List (Option Int) :=
  [some (- match_score m), some (- m.overlap_days),
   some (- (if m.sm.is_common then 1 else 0)),
   some (- (if m.sm.is_primary_permno then 1 else 0)),
   some m.sm.namedt]

/-- Provider record shared by the C6 rows. -/
def prov6 : ProviderRow :=
  { orgpermid := "A", year := 2020, cusip := none, isin := none,
    valid_from := 0, valid_to := 365 }

/-- C6 row with the common-share flag (claim ranking prefers it). -/
def m6a : MatchRow :=
  { prov := prov6
    sm := { permno := 1, gvkey := some 100, namedt := 0, nameendt := 365,
            ncusip6 := none, ticker := none, is_common := true,
            is_primary_permno := false, exchcd := some 2,
            linkprim_score := none, linktype_rank := none }
    match_src := "CUSIP6" }

/-- C6 row with the primary-listing flag (code ranking prefers it); its match
score ties with `m6a` (3 for common vs 2 for primary plus 1 for the preferred
exchange). -/
def m6b : MatchRow :=
  { prov := prov6
    sm := { permno := 2, gvkey := some 200, namedt := 0, nameendt := 365,
            ncusip6 := none, ticker := none, is_common := false,
            is_primary_permno := true, exchcd := some 1,
            linkprim_score := none, linktype_rank := none }
    match_src := "CUSIP6" }

/-- C6 counterexample: with scores and overlaps tied, the code keeps the
primary-listing row `m6b`, while the claimed tie-break order (common-share
flag before primary-listing flag) ranks `m6a` strictly higher. -/
theorem C6_counterexample :
    select_best_match [m6a, m6b] = [m6b]
    ∧ match_score m6a = match_score m6b
    ∧ MatchRow.overlap_days m6a = MatchRow.overlap_days m6b
    ∧ keyLE (specSelKey m6a) (specSelKey m6b) = true
    ∧ keyLE (specSelKey m6b) (specSelKey m6a) = false
    ∧ m6a ≠ m6b := by
  refine ⟨?_, by decide, by decide, by decide, by decide, by decide⟩
  simp [select_best_match, oSort, oInsert, dropDupBy, selLE, strThen, strLtB, charListLT,
    selKey, keyLE, optLE, match_score, MatchRow.overlap_days, calculate_overlap_days,
    source_score, m6a, m6b, prov6, MatchRow.key, set_src, PREFERRED_EXCHANGES]

/-- C6 (amended): for every (entity id, year) group with at least one
candidate, `select_best_match` keeps exactly one row; it is a group member
and ranks at least as high as every group member under the code's order:
match score, overlap days, primary-listing flag, common-share flag (all
descending), then exchange code and segment start date ascending
(the comparator `selLE`). -/
theorem C6_select_best_match (df : List MatchRow) (k : String × Int)
    (h : ∃ m ∈ df, MatchRow.key m = k) :
    ∃ best, ((select_best_match df).filter (fun m => decide (MatchRow.key m = k))) = [best]
      ∧ best ∈ df ∧ MatchRow.key best = k
      ∧ ∀ c ∈ df, MatchRow.key c = k → selLE best c = true := by
  unfold select_best_match
  refine select_top_one MatchRow.key selLE selLE_total
    (fun a b c h₁ h₂ => selLE_trans h₁ h₂) selLE_refl df k ?_
  rcases h with ⟨m, hm, hk⟩
  exact List.mem_map.mpr ⟨m, hm, hk⟩

theorem C6_select_best_match_witness :
    ∃ best, ((select_best_match [m6a, m6b]).filter
        (fun m => decide (MatchRow.key m = ("A", 2020)))) = [best]
      ∧ best ∈ [m6a, m6b] ∧ MatchRow.key best = ("A", 2020)
      ∧ ∀ c ∈ [m6a, m6b], MatchRow.key c = ("A", 2020) → selLE best c = true :=
  C6_select_best_match [m6a, m6b] ("A", 2020) (by decide)

/-- Provider record shared by the C9 rows. -/
def prov9 : ProviderRow :=
  { orgpermid := "B", year := 2019, cusip := none, isin := none,
    valid_from := -365, valid_to := 0 }

/-- C9 row; agrees with `m9b` on the group key and on every ranking column
(score, overlap, flags, exchange, start date) but carries gvkey 100. -/
def m9a : MatchRow :=
  { prov := prov9
    sm := { permno := 1, gvkey := some 100, namedt := -365, nameendt := 0,
            ncusip6 := none, ticker := none, is_common := true,
            is_primary_permno := true, exchcd := some 1,
            linkprim_score := none, linktype_rank := none }
    match_src := "CUSIP6" }

/-- C9 row tying with `m9a` on every ranking column but carrying gvkey 200. -/
def m9b : MatchRow :=
  { prov := prov9
    sm := { permno := 1, gvkey := some 200, namedt := -365, nameendt := 0,
            ncusip6 := none, ticker := none, is_common := true,
            is_primary_permno := true, exchcd := some 1,
            linkprim_score := none, linktype_rank := none }
    match_src := "CUSIP6" }

/-- C9 counterexample: two candidates that tie on every ranking column are
kept or discarded depending only on input row order, so re-running the
selection on a row-permuted input changes both the Match set and the
Crosswalk. -/
theorem C9_counterexample :
    ([m9a, m9b]).Perm [m9b, m9a]
    ∧ select_best_match [m9a, m9b] = [m9a]
    ∧ select_best_match [m9b, m9a] = [m9b]
    ∧ select_best_match [m9a, m9b] ≠ select_best_match [m9b, m9a]
    ∧ create_crosswalk (select_best_match [m9a, m9b])
        ≠ create_crosswalk (select_best_match [m9b, m9a]) := by
  have h1 : select_best_match [m9a, m9b] = [m9a] := by
    simp [select_best_match, oSort, oInsert, dropDupBy, selLE, strThen, strLtB, charListLT,
      selKey, keyLE, optLE, match_score, MatchRow.overlap_days, calculate_overlap_days,
      source_score, m9a, m9b, prov9, MatchRow.key, PREFERRED_EXCHANGES]
  have h2 : select_best_match [m9b, m9a] = [m9b] := by
    simp [select_best_match, oSort, oInsert, dropDupBy, selLE, strThen, strLtB, charListLT,
      selKey, keyLE, optLE, match_score, MatchRow.overlap_days, calculate_overlap_days,
      source_score, m9a, m9b, prov9, MatchRow.key, PREFERRED_EXCHANGES]
  refine ⟨List.Perm.swap m9b m9a [], h1, h2, ?_, ?_⟩
  · rw [h1, h2]
    decide
  · rw [h1, h2]
    simp [create_crosswalk, crossPairs, crossGroup, mkCross, crossLE, modePermno, dropDupBy,
      oSort, oInsert, pairLE, strThen, strLtB, charListLT, keyLE, optLE, match_score,
      MatchRow.overlap_days, calculate_overlap_days, source_score, m9a, m9b, prov9,
      PREFERRED_EXCHANGES]

/-- C9 (amended): the top-1-per-group selection is order-independent provided
no two candidates tie on the full ranking key (entity id, year, score,
overlap, flags, exchange code, start date): on permuted inputs it returns the
identical Match list, and hence the identical Crosswalk.  (The counterexample
shows this fails when two candidates tie on every ranking column.) -/
theorem C9_order_independent (df₁ df₂ : List MatchRow) (hperm : df₁.Perm df₂)
    (hnoties : ∀ a ∈ df₁, ∀ b ∈ df₁, selLE a b = true → selLE b a = true → a = b) :
    select_best_match df₁ = select_best_match df₂
    ∧ create_crosswalk (select_best_match df₁)
        = create_crosswalk (select_best_match df₂) := by
  have hs : oSort selLE df₁ = oSort selLE df₂ := by
    refine sorted_perm_eq
      ((oSort_perm selLE df₁).trans (hperm.trans (oSort_perm selLE df₂).symm))
      (pairwise_oSort selLE_total (fun a b c h₁ h₂ => selLE_trans h₁ h₂) df₁)
      (pairwise_oSort selLE_total (fun a b c h₁ h₂ => selLE_trans h₁ h₂) df₂) ?_
    intro a ha b hb hab hba
    exact hnoties a ((oSort_perm selLE df₁).subset ha)
      b ((oSort_perm selLE df₁).subset hb) hab hba
  have hsel : select_best_match df₁ = select_best_match df₂ := by
    unfold select_best_match
    rw [hs]
  exact ⟨hsel, by rw [hsel]⟩

theorem C9_order_independent_witness :
    select_best_match [m6a, m6b] = select_best_match [m6b, m6a]
    ∧ create_crosswalk (select_best_match [m6a, m6b])
        = create_crosswalk (select_best_match [m6b, m6a]) :=
  C9_order_independent [m6a, m6b] [m6b, m6a] (List.Perm.swap m6b m6a []) (by decide)

theorem exists_key_oSort {le : MatchRow → MatchRow → Bool} {l : List MatchRow}
    {k : String × Int} :
    (∃ m ∈ oSort le l, MatchRow.key m = k) ↔ (∃ m ∈ l, MatchRow.key m = k) := by
  constructor
  · rintro ⟨m, hm, hk⟩
    exact ⟨m, mem_oSort.mp hm, hk⟩
  · rintro ⟨m, hm, hk⟩
    exact ⟨m, mem_oSort.mpr hm, hk⟩

theorem exists_key_select {df : List MatchRow} {k : String × Int} :
    (∃ m ∈ select_best_match df, MatchRow.key m = k) ↔ (∃ m ∈ df, MatchRow.key m = k) := by
  unfold select_best_match
  constructor
  · rintro ⟨m, hm, hk⟩
    exact ⟨m, mem_oSort.mp (mem_of_mem_dropDupBy hm), hk⟩
  · rintro ⟨m, hm, hk⟩
    have hmem : k ∈ (dropDupBy MatchRow.key (oSort selLE df)).map MatchRow.key :=
      mem_map_dropDupBy.mpr (List.mem_map.mpr ⟨m, mem_oSort.mpr hm, hk⟩)
    rcases List.mem_map.mp hmem with ⟨mm, hmm, hkk⟩
    exact ⟨mm, hmm, hkk⟩

theorem exists_key_map_src {df : List MatchRow} {s : String} {k : String × Int} :
    (∃ m ∈ df.map (set_src s), MatchRow.key m = k) ↔ (∃ m ∈ df, MatchRow.key m = k) := by
  constructor
  · rintro ⟨m, hm, hk⟩
    rcases List.mem_map.mp hm with ⟨m0, hm0, hms⟩
    refine ⟨m0, hm0, ?_⟩
    rw [← hk, ← hms]
    rfl
  · rintro ⟨m, hm, hk⟩
    refine ⟨set_src s m, List.mem_map.mpr ⟨m, hm, rfl⟩, ?_⟩
    show MatchRow.key (set_src s m) = k
    rw [show MatchRow.key (set_src s m) = MatchRow.key m from rfl, hk]

theorem exists_key_match_by {provider : List ProviderRow} {sm : List SMRow}
    {idcol : ProviderRow → Option String} {already : List MatchRow}
    {e : String} {y : Int} :
    (∃ m ∈ match_by_cusip6 provider sm idcol already, MatchRow.key m = (e, y))
    ↔ (∃ r ∈ provider, r.orgpermid = e ∧ r.year = y ∧ (idcol r).isSome = true
        ∧ (¬ ∃ x ∈ already, x.prov.orgpermid = r.orgpermid ∧ x.prov.year = r.year)
        ∧ ∃ s ∈ sm, s.ncusip6 = idcol r
          ∧ 0 < calculate_overlap_days r.valid_from r.valid_to s.namedt s.nameendt) := by
  constructor
  · rintro ⟨m, hm, hk⟩
    rcases mem_match_by_cusip6 hm with ⟨hp, hid, hexc, hs, hnc, hov, _⟩
    have hke : m.prov.orgpermid = e := congrArg Prod.fst hk
    have hky : m.prov.year = y := congrArg Prod.snd hk
    exact ⟨m.prov, hp, hke, hky, hid, hexc, m.sm, hs, hnc, hov⟩
  · rintro ⟨r, hr, he, hy, hid, hexc, s, hs, hnc, hov⟩
    refine ⟨{ prov := r, sm := s, match_src := "" },
      match_by_cusip6_mem hr hid hexc hs hnc hov, ?_⟩
    show (r.orgpermid, r.year) = (e, y)
    rw [he, hy]

/-- C7 (amended): the reported Match output of `perform_matching` contains a
row for a (provider entity id, period) pair exactly when some provider record
with that key has at least one positive-overlap candidate under the CUSIP6 or
the ISIN-derived CUSIP6 strategy.  Records with zero candidates are omitted
entirely: no unmatched row (entity key = none) and no unmatched-records table
is produced. -/
theorem C7_unmatched_omitted (provider : List ProviderRow) (sm : List SMRow)
    (e : String) (y : Int) :
    (∃ m ∈ perform_matching provider sm, MatchRow.key m = (e, y))
    ↔ (∃ r ∈ provider, r.orgpermid = e ∧ r.year = y
        ∧ (((cusip6_from_cusip r).isSome = true
              ∧ ∃ s ∈ sm, s.ncusip6 = cusip6_from_cusip r
                ∧ 0 < calculate_overlap_days r.valid_from r.valid_to s.namedt s.nameendt)
          ∨ ((cusip6_from_isin r).isSome = true
              ∧ ∃ s ∈ sm, s.ncusip6 = cusip6_from_isin r
                ∧ 0 < calculate_overlap_days r.valid_from r.valid_to s.namedt s.nameendt))) := by
  have hifA : (∃ m ∈ (if match_by_cusip6 provider sm cusip6_from_cusip [] = [] then []
      else select_best_match ((match_by_cusip6 provider sm cusip6_from_cusip []).map
        (set_src "CUSIP6"))), MatchRow.key m = (e, y))
      ↔ ∃ m ∈ match_by_cusip6 provider sm cusip6_from_cusip [],
          MatchRow.key m = (e, y) := by
    by_cases hc : match_by_cusip6 provider sm cusip6_from_cusip [] = []
    · rw [if_pos hc, hc]
    · rw [if_neg hc]
      exact exists_key_select.trans exists_key_map_src
  have hifI : (∃ m ∈ (if match_by_cusip6 provider sm cusip6_from_isin
        (if match_by_cusip6 provider sm cusip6_from_cusip [] = [] then []
         else select_best_match ((match_by_cusip6 provider sm cusip6_from_cusip []).map
           (set_src "CUSIP6"))) = [] then []
      else select_best_match ((match_by_cusip6 provider sm cusip6_from_isin
        (if match_by_cusip6 provider sm cusip6_from_cusip [] = [] then []
         else select_best_match ((match_by_cusip6 provider sm cusip6_from_cusip []).map
           (set_src "CUSIP6")))).map (set_src "ISIN_CUSIP6"))),
        MatchRow.key m = (e, y))
      ↔ ∃ m ∈ match_by_cusip6 provider sm cusip6_from_isin
          (if match_by_cusip6 provider sm cusip6_from_cusip [] = [] then []
           else select_best_match ((match_by_cusip6 provider sm cusip6_from_cusip []).map
             (set_src "CUSIP6"))), MatchRow.key m = (e, y) := by
    by_cases hc : match_by_cusip6 provider sm cusip6_from_isin
        (if match_by_cusip6 provider sm cusip6_from_cusip [] = [] then []
         else select_best_match ((match_by_cusip6 provider sm cusip6_from_cusip []).map
           (set_src "CUSIP6"))) = []
    · rw [if_pos hc, hc]
    · rw [if_neg hc]
      exact exists_key_select.trans exists_key_map_src
  have hsplit : (∃ m ∈ perform_matching provider sm, MatchRow.key m = (e, y))
      ↔ ((∃ m ∈ match_by_cusip6 provider sm cusip6_from_cusip [],
            MatchRow.key m = (e, y))
        ∨ (∃ m ∈ match_by_cusip6 provider sm cusip6_from_isin
            (if match_by_cusip6 provider sm cusip6_from_cusip [] = [] then []
             else select_best_match ((match_by_cusip6 provider sm cusip6_from_cusip []).map
               (set_src "CUSIP6"))), MatchRow.key m = (e, y))) := by
    rw [show perform_matching provider sm = oSort outLE
        ((if match_by_cusip6 provider sm cusip6_from_cusip [] = [] then []
          else select_best_match ((match_by_cusip6 provider sm cusip6_from_cusip []).map
            (set_src "CUSIP6")))
        ++ (if match_by_cusip6 provider sm cusip6_from_isin
              (if match_by_cusip6 provider sm cusip6_from_cusip [] = [] then []
               else select_best_match ((match_by_cusip6 provider sm cusip6_from_cusip []).map
                 (set_src "CUSIP6"))) = [] then []
            else select_best_match ((match_by_cusip6 provider sm cusip6_from_isin
              (if match_by_cusip6 provider sm cusip6_from_cusip [] = [] then []
               else select_best_match ((match_by_cusip6 provider sm cusip6_from_cusip []).map
                 (set_src "CUSIP6")))).map (set_src "ISIN_CUSIP6")))) from rfl]
    rw [exists_key_oSort]
    constructor
    · rintro ⟨m, hm, hk⟩
      rcases List.mem_append.mp hm with h | h
      · exact Or.inl (hifA.mp ⟨m, h, hk⟩)
      · exact Or.inr (hifI.mp ⟨m, h, hk⟩)
    · rintro (h | h)
      · rcases hifA.mpr h with ⟨m, hm, hk⟩
        exact ⟨m, List.mem_append.mpr (Or.inl hm), hk⟩
      · rcases hifI.mpr h with ⟨m, hm, hk⟩
        exact ⟨m, List.mem_append.mpr (Or.inr hm), hk⟩
  rw [hsplit]
  constructor
  · rintro (h | h)
    · rcases exists_key_match_by.mp h with ⟨r, hr, he, hy, hid, _, s, hs, hnc, hov⟩
      exact ⟨r, hr, he, hy, Or.inl ⟨hid, s, hs, hnc, hov⟩⟩
    · rcases exists_key_match_by.mp h with ⟨r, hr, he, hy, hid, _, s, hs, hnc, hov⟩
      exact ⟨r, hr, he, hy, Or.inr ⟨hid, s, hs, hnc, hov⟩⟩
  · rintro ⟨r, hr, he, hy, hcand | hcand⟩
    · rcases hcand with ⟨hid, s, hs, hnc, hov⟩
      refine Or.inl (exists_key_match_by.mpr ⟨r, hr, he, hy, hid, ?_, s, hs, hnc, hov⟩)
      simp
    · rcases hcand with ⟨hid, s, hs, hnc, hov⟩
      by_cases hkC : ∃ m ∈ match_by_cusip6 provider sm cusip6_from_cusip [],
          MatchRow.key m = (e, y)
      · exact Or.inl hkC
      · refine Or.inr (exists_key_match_by.mpr ⟨r, hr, he, hy, hid, ?_, s, hs, hnc, hov⟩)
        rintro ⟨x, hx, hxe, hxy⟩
        apply hkC
        apply hifA.mp
        refine ⟨x, hx, ?_⟩
        show (x.prov.orgpermid, x.prov.year) = (e, y)
        rw [hxe, hxy, he, hy]

/-- Provider record with no usable identifier, used against C7. -/
def r7 : ProviderRow :=
  { orgpermid := "X", year := 2020, cusip := none, isin := none,
    valid_from := 0, valid_to := 365 }

/-- Security-master segment available while `r7` goes unmatched. -/
def s7 : SMRow :=
  { permno := 9, gvkey := some 1, namedt := 0, nameendt := 365,
    ncusip6 := some "999999", ticker := some "XYZ", is_common := true,
    is_primary_permno := true, exchcd := some 1,
    linkprim_score := some 1, linktype_rank := some 2 }

/-- C7 counterexample: a provider record with no candidate never reaches the
reported output — `perform_matching` returns an empty Match set for it rather
than an unmatched row with entity key none, and no unmatched-records table is
produced anywhere in the mapper. -/
theorem C7_counterexample :
    perform_matching [r7] [s7] = [] ∧ [r7].length = 1 := by
  constructor
  · simp [perform_matching, match_by_cusip6, select_best_match, dropDupBy, oSort, oInsert,
      cusip6_from_cusip, cusip6_from_isin, extract_cusip6_from_isin, r7, s7, set_src, outLE]
  · rfl

theorem C7_unmatched_omitted_witness :
    ¬ ∃ m ∈ perform_matching [r7] [s7], MatchRow.key m = ("X", 2020) := by
  intro h
  have h2 := (C7_unmatched_omitted [r7] [s7] "X" 2020).mp h
  revert h2
  decide

end ESG
